import Mathlib

/-!
Shallow embedding of the escrypto big-number core
(src/lib/BigNum.ts and src/lib/bufferUtil.js).

An ArrayBuffer of bytes is modelled as a `List Nat` of byte values,
most-significant byte first, exactly as the source stores magnitudes.
Loops of the source that walk a buffer from the least-significant end
are modelled on the reversed list (the JavaScript loops that start one
index past the end of a typed array perform a no-op first iteration:
out-of-bounds reads feed a NaN or 0 that the subsequent masking
discards, and out-of-bounds stores are ignored; the models therefore
cover exactly the in-bounds iterations).
-/

instance {ε α : Type} [DecidableEq ε] [DecidableEq α] :
    DecidableEq (Except ε α) := fun a b =>
  match a, b with
  | .error e, .error f => decidable_of_iff (e = f) (by simp)
  | .ok x, .ok y => decidable_of_iff (x = y) (by simp)
  | .error _, .ok _ => isFalse (by simp)
  | .ok _, .error _ => isFalse (by simp)

/-- Every entry of the list is a byte value (the Uint8Array typing
invariant of the source buffers). -/
def ValidBytes (l : List Nat) : Prop := ∀ b ∈ l, b < 256

instance : DecidablePred ValidBytes :=
  fun l => inferInstanceAs (Decidable (∀ b ∈ l, b < 256))

/-- Numeric value of a least-significant-first digit list in the given
base.  Helper for reading buffers as numbers. -/
def valueLS (base : Nat) : List Nat → Nat
  | [] => 0
  | x :: xs => x + base * valueLS base xs

/-- Numeric value denoted by a magnitude buffer (big-endian byte list);
this is the `toNumber` reading the spec and the source tests use
(`eval('0x' + toHex(buffer))`). -/
def value (l : List Nat) : Nat := valueLS 256 l.reverse

/-- One hex character to its value (JS `Number.parseInt(pair, 16)`
acting on a single digit). -/
def hexVal (c : Char) : Nat :=
  if '0' ≤ c ∧ c ≤ '9' then c.toNat - 48
  else if 'a' ≤ c ∧ c ≤ 'f' then c.toNat - 87
  else if 'A' ≤ c ∧ c ≤ 'F' then c.toNat - 55
  else 0

/-- The character class `[0-9a-fA-F]` of the source's hex validation. -/
def isHexDigit (c : Char) : Bool :=
  ('0' ≤ c && c ≤ '9') || ('a' ≤ c && c ≤ 'f') || ('A' ≤ c && c ≤ 'F')

/-- Split a hex-character list into byte values, two characters per
byte (source: `numberString.match(/../g).map(p => parseInt(p, 16))`). -/
def pairsToBytes : List Char → List Nat
  | c1 :: c2 :: rest => (16 * hexVal c1 + hexVal c2) :: pairsToBytes rest
  | _ => []

/-- BigNum.ts `parseString` (base 16): an optional leading minus sign
sets the negative flag, every remaining character must be a hex digit
(otherwise a FormatError), an odd-length digit string is left-padded
with one `0`, and the digit pairs become the magnitude bytes.  On the
empty digit string the source crashes (`''.match(/../g)` is null), a
thrown TypeError, modelled as an error as well. -/
def parseString (s : List Char) : Except String (List Nat × Bool) :=
  let p : Bool × List Char :=
    match s with
    | '-' :: rest => (true, rest)
    | _ => (false, s)
  if p.2.all isHexDigit then
    if p.2.isEmpty then .error "TypeError"
    else
      .ok (pairsToBytes (if p.2.length % 2 = 1 then '0' :: p.2 else p.2), p.1)
  else .error "FormatError"

/-- Lower-case hex digit of a value below 16 (JS `num.toString(16)`). -/
def hexDigit (n : Nat) : Char :=
  if n < 10 then Char.ofNat (48 + n) else Char.ofNat (87 + n)

/-- Two lower-case hex characters of one byte
(source: `` `0${num.toString(16)}`.slice(-2) ``). -/
def byteToHexPair (b : Nat) : List Char := [hexDigit (b / 16), hexDigit (b % 16)]

/-- BigNum.ts `hex` getter: concatenated byte pairs, and the empty
buffer renders as "0" (the `|| '0'` fallback). -/
def hexBN (l : List Nat) : List Char :=
  let s := (l.map byteToHexPair).flatten
  if s.isEmpty then ['0'] else s

/-- bufferUtil.js `fromHex`: requires the `0x` marker, an even total
character count and hex digits only; otherwise a FormatError.  On the
bare string "0x" the source crashes (`''.match(/.{2}/g)` is null). -/
def fromHexBU (s : List Char) : Except String (List Nat) :=
  if s.take 2 = ['0', 'x'] ∧ s.length % 2 = 0 ∧ (s.drop 2).all isHexDigit then
    if (s.drop 2).isEmpty then .error "TypeError"
    else .ok (pairsToBytes (s.drop 2))
  else .error "FormatError"

/-- bufferUtil.js `toHex`: `0x` followed by the byte pairs. -/
def toHexBU (l : List Nat) : List Char :=
  '0' :: 'x' :: (l.map byteToHexPair).flatten

/-- The byte-scanning loop shared verbatim by BigNum.ts `cmp` and the
module-level `spaceShip`: walk the longer buffer from its most
significant byte; while within the length difference any non-zero byte
decides, afterwards the first unequal aligned pair decides. -/
def spaceShipLoop : List Nat → List Nat → Nat → Bool → Int
  | [], _, _, _ => 0
  | x :: rest, short, diff + 1, longIsA =>
      if x ≠ 0 then (if longIsA then 1 else -1)
      else spaceShipLoop rest short diff longIsA
  | x :: rest, short, 0, longIsA =>
      match short with
      | [] => 0
      | y :: srest =>
          if x ≠ y then (if decide (x > y) = longIsA then 1 else -1)
          else spaceShipLoop rest srest 0 longIsA

/-- `spaceShip` (BigNum.ts, likewise `cmp`): three-way comparison of two
big-endian magnitude buffers, -1/0/1. -/
def spaceShip (a b : List Nat) : Int :=
  if a.length > b.length then spaceShipLoop a b (a.length - b.length) true
  else spaceShipLoop b a (b.length - a.length) false

/-- BigNum.ts `eq`. -/
def eq (a b : List Nat) : Bool := spaceShip a b = 0

/-- BigNum.ts `gt`. -/
def gt (a b : List Nat) : Bool := spaceShip a b > 0

/-- BigNum.ts `lt`. -/
def lt (a b : List Nat) : Bool := spaceShip a b < 0

/-- BigNum.ts `gte`. -/
def gte (a b : List Nat) : Bool := spaceShip a b ≥ 0

/-- BigNum.ts `lte`. -/
def lte (a b : List Nat) : Bool := spaceShip a b ≤ 0

/-- The byte-wise addition loop of BigNum.ts `add` on least-significant-
first lists: the source's reduceRight over the longer array, adding the
aligned byte of the shorter array while one exists.  Each stored byte is
`sum & 0xff` (here `% 256`, the Uint8Array store) and the carry is
`sum > 0xff ? 1 : 0`.  Returns the result bytes and the final carry. -/
def addLoopLS : List Nat → List Nat → Nat → List Nat × Nat
  | [], _, carry => ([], carry)
  | x :: xs, [], carry =>
      let sum := x + carry
      let r := addLoopLS xs [] (if sum > 255 then 1 else 0)
      ((sum % 256) :: r.1, r.2)
  | x :: xs, y :: ys, carry =>
      let sum := x + y + carry
      let r := addLoopLS xs ys (if sum > 255 then 1 else 0)
      ((sum % 256) :: r.1, r.2)

/-- BigNum.ts `add`: result buffer of length max(len a, len b); when the
final carry is non-zero the result grows by one leading byte holding it. -/
def add (a b : List Nat) : List Nat :=
  let p : List Nat × List Nat := if a.length > b.length then (b, a) else (a, b)
  let r := addLoopLS p.2.reverse p.1.reverse 0
  if r.2 = 0 then r.1.reverse else r.2 :: r.1.reverse

/-- The borrow loop of BigNum.ts `subI` on least-significant-first
lists.  The carry is 0 or -1 (source: `carry = carry < 0 ? -1 : 0`); the
JS store `arrayA[index] = carry & 0xff` masks the possibly negative
value to its low byte, i.e. takes it modulo 256.  Returns the new bytes
and the final carry (left in a dead local by the source). -/
def subLoopLS : List Nat → List Nat → Int → List Nat × Int
  | [], _, carry => ([], carry)
  | x :: xs, [], carry =>
      let c := carry + x
      let r := subLoopLS xs [] (if c < 0 then -1 else 0)
      ((c % 256).toNat :: r.1, r.2)
  | x :: xs, y :: ys, carry =>
      let c := carry + x - y
      let r := subLoopLS xs ys (if c < 0 then -1 else 0)
      ((c % 256).toNat :: r.1, r.2)

/-- The subtrahend bytes the BigNum.ts `subI` loop actually reads, one
per byte of the target and least-significant first.  The source
subtracts `arrayB[index - lengthDifference]` whenever
`index >= lengthDifference`, with `lengthDifference = |lenA - lenB|`
and `index` running over the big-endian positions of `arrayA`.  In
least-significant-first position `p = lenA - 1 - index` this reads, for
`lenB <= lenA`, exactly the byte of `b` of the same significance; but
for `lenB > lenA` (a longer, zero-padded subtrahend) it reads
`bLS[p + 2*(lenB - lenA)]` while `p + (lenB - lenA) < lenA` and nothing
otherwise — the loop was written for a target at least as long as the
subtrahend and misaligns otherwise. -/
def subEffB (aLS bLS : List Nat) : List Nat :=
  if bLS.length ≤ aLS.length then bLS
  else
    (bLS.drop (2 * (bLS.length - aLS.length))).take
        (aLS.length - (bLS.length - aLS.length))
      ++ List.replicate
        (aLS.length - (aLS.length - (bLS.length - aLS.length))) 0

/-- The body of BigNum.ts `subI` after its underflow check: zero-fill
the whole target when the operands compare equal, otherwise run the
borrow loop over the bytes of `a`, subtracting the bytes of `b` the
source's index arithmetic selects. -/
def subICore (a b : List Nat) : List Nat :=
  if spaceShip a b = 0 then List.replicate a.length 0
  else ((subLoopLS a.reverse (subEffB a.reverse b.reverse) 0).1).reverse

/-- BigNum.ts `subI`: throws an OverflowError when a compares below b;
the check runs before any byte of the target buffer is written. -/
def subI (a b : List Nat) : Except String (List Nat) :=
  if spaceShip a b < 0 then .error "OverflowError: Result is smaller than 0"
  else .ok (subICore a b)

/-- BigNum.ts `sub`: clone the first buffer and subtract in place; the
returned buffer is the mutated clone. -/
def sub (a b : List Nat) : Except String (List Nat) := subI a b

/-- Observable state of `subI`'s target buffer after a call: on a throw
the buffer still holds its original bytes (the underflow check precedes
every write in the source), otherwise the subtraction result. -/
def subIRun (a b : List Nat) : List Nat × Bool :=
  match subI a b with
  | .error _ => (a, true)
  | .ok r => (r, false)

/-- floor(log2 x) + 1 for a byte value x (the source computes
`Math.floor(Math.log2(byte)) + 1` on a Uint8Array entry), tabulated
over the byte range. -/
def byteBits (x : Nat) : Nat :=
  if x ≥ 128 then 8 else if x ≥ 64 then 7 else if x ≥ 32 then 6
  else if x ≥ 16 then 5 else if x ≥ 8 then 4 else if x ≥ 4 then 3
  else if x ≥ 2 then 2 else if x ≥ 1 then 1 else 0

/-- BigNum.ts `bitLength`: walk the buffer from the most significant
byte to the first non-zero byte; the result is
`8 * (bytes to its right) + floor(log2 byte) + 1`, and 0 for an all-zero
or empty buffer. -/
def bitLength : List Nat → Nat
  | [] => 0
  | x :: xs => if x ≠ 0 then 8 * xs.length + byteBits x else bitLength xs

/-- BigNum.ts `leftShiftI` on least-significant-first bytes: per byte,
`carry += array[i] << n; array[i] = carry & 0xff; carry >>>= 8`.
Returns the shifted bytes and the final carry. -/
def leftShiftILS (n : Nat) : List Nat → Nat → List Nat × Nat
  | [], carry => ([], carry)
  | x :: xs, carry =>
      let t := (x <<< n) + carry
      let r := leftShiftILS n xs (t >>> 8)
      ((t &&& 0xff) :: r.1, r.2)

/-- BigNum.ts `leftShiftI` on a big-endian buffer: shift in place by n,
keeping the length.  The final carry is dropped, exactly as the divmod
call site does; the source's n ≤ 24 guard cannot fire there (n = 1). -/
def leftShiftI (buf : List Nat) (n : Nat) : List Nat :=
  ((leftShiftILS n buf.reverse 0).1).reverse

/-- The numerator bit divmod injects:
`numeratorArray[len - ceil(index/8)] & (1 << (index-1)%8) ? 1 : 0`.
With i = index - 1 this is bit i % 8 of the byte at least-significant
position i / 8 (out-of-range reads give 0, as the JS undefined does). -/
def numBit (a : List Nat) (i : Nat) : Nat :=
  if (a.reverse.getD (i / 8) 0) &&& (1 <<< (i % 8)) ≠ 0 then 1 else 0

/-- `remainder[remainder.length - 1] |= v`: OR the injected bit value
into the least significant byte of the big-endian remainder; on an
empty buffer the store is an out-of-range no-op. -/
def orLastByte (buf : List Nat) (v : Nat) : List Nat :=
  match buf.reverse with
  | [] => buf
  | x :: rest => ((x ||| v) :: rest).reverse

/-- `quotient[len - ceil(index/8)] |= 1 << (index-1)%8` on the
least-significant-first bytes: with i = index - 1, OR `1 <<< (i % 8)`
into the byte at position i / 8 (out-of-range stores are no-ops). -/
def setBitLS : List Nat → Nat → List Nat
  | [], _ => []
  | x :: xs, i => if i < 8 then (x ||| (1 <<< i)) :: xs else x :: setBitLS xs (i - 8)

/-- Quotient-bit store of divmod on the big-endian buffer. -/
def setBit (buf : List Nat) (i : Nat) : List Nat := (setBitLS buf.reverse i).reverse

/-- The long-division loop of BigNum.ts `divmod`: the source iterates
`index` from bitLength(numerator) down to 1, shifting the remainder
left one bit, injecting numerator bit index - 1, and when the remainder
reaches the denominator, subtracting it in place (the gte guard means
subI's own underflow check passes, leaving its zero-fill-or-borrow
body) and setting quotient bit index - 1. -/
def divmodLoop (a b : List Nat) : Nat → List Nat → List Nat → List Nat × List Nat
  | 0, q, r => (q, r)
  | index + 1, q, r =>
      let r1 := orLastByte (leftShiftI r 1) (numBit a index)
      if gte r1 b then
        divmodLoop a b index (setBit q index) (subICore r1 b)
      else
        divmodLoop a b index q r1

/-- BigNum.ts `divmod`: DivisionByZero check on the denominator's bit
length, the numerator-smaller short circuit (empty quotient, cloned
numerator), then binary long division with the quotient pre-sized to
the numerator's byte length and the remainder to the denominator's
byte length plus one. -/
def divmod (a b : List Nat) : Except String (List Nat × List Nat) :=
  if bitLength b = 0 then .error "DivisionByZeroError"
  else if lt a b then .ok ([], a)
  else .ok (divmodLoop a b (bitLength a)
      (List.replicate a.length 0) (List.replicate (b.length + 1) 0))

/-- `padToNBytes` (BigNum.ts): left-pad the buffer with zero bytes to a
multiple of n bytes. -/
def padToNBytes (buf : List Nat) (n : Nat) : List Nat :=
  List.replicate ((n - buf.length % n) % n) 0 ++ buf

/-- The DataView getUint16 reads of the mul loop, as 16-bit lanes: on a
least-significant-first byte list, each consecutive low/high byte pair
is one lane (`getUint16(byteLength - pairIndex)` reads big-endian, so
the later byte of the pair is the low one).  A stray odd byte would be
its own lane; mul always pads to even length first. -/
def bytesToLanesLS : List Nat → List Nat
  | lo :: hi :: rest => (256 * hi + lo) :: bytesToLanesLS rest
  | [lo] => [lo]
  | [] => []

/-- The setUint16 stores of the mul result, lanes back to bytes,
least-significant-first: low byte then high byte per lane. -/
def lanesToBytesLS : List Nat → List Nat
  | [] => []
  | lane :: rest => lane % 256 :: lane / 256 :: lanesToBytesLS rest

/-- Lane number i, 1-based from the least significant end
(`view.getUint16(byteLength - 2*i)`); out of range reads 0. -/
def laneGet (lanes : List Nat) (i : Nat) : Nat := lanes.getD (i - 1) 0

/-- The inner loop of BigNum.ts `mul` for output lane r (1-based from
the least significant end): the source's pairIndex runs from
min(lenA, resultIndex) downward while
`resultIndex + 2 - pairIndex <= bufferB.byteLength`; in lane numbers
the a-lane is i and the b-lane r + 1 - i.  tmp is the lane product plus
the running sum (at most 0xFFFF * 0xFFFF + 0xFFFF = 0xFFFF0000, the
source's 32-bit invariant, so the JS `& 0xffff` and `>>> 16` are the
exact low/high split modelled here); the low 16 bits continue as the
sum, the high bits add to the carry. -/
def mulInner (aL bL : List Nat) (r : Nat) : Nat → Nat × Nat → Nat × Nat
  | 0, sc => sc
  | i + 1, sc =>
      if r + 1 - (i + 1) ≤ bL.length then
        let tmp := laneGet aL (i + 1) * laneGet bL (r + 1 - (i + 1)) + sc.1
        mulInner aL bL r i (tmp &&& 0xffff, sc.2 + (tmp >>> 16))
      else sc

/-- `Number.MAX_SAFE_INTEGER`. -/
def maxSafeInteger : Nat := 2 ^ 53 - 1

/-- The outer loop of BigNum.ts `mul` over the output lanes, r counting
1-based from the least significant end and `remaining` lanes still to
write.  The defensive guard throws an OverflowError when the carry
reaches MAX_SAFE_INTEGER; otherwise the sum starts as the carry's low
16 bits and the carry keeps its high bits, the inner loop accumulates
the lane pairs, and the sum is written as the output lane.  A carry
left after the last lane is dropped (the source loop just ends). -/
def mulLanes (aL bL : List Nat) : Nat → Nat → Nat → Except String (List Nat)
  | _carry, _r, 0 => .ok []
  | carry, r, remaining + 1 =>
      if carry ≥ maxSafeInteger then .error "OverflowError"
      else
        let sc := mulInner aL bL r (min aL.length r) (carry % 0x10000, carry / 0x10000)
        (mulLanes aL bL sc.2 (r + 1) remaining).map (fun rest => sc.1 :: rest)

/-- BigNum.ts `mul` (the magnitude computation; the sign xor of the
BigNum wrapper is orthogonal): the result buffer has lenA + lenB bytes,
all three buffers are padded to even length, and the loop fills the
result's 16-bit lanes from the least significant end. -/
def mul (a b : List Nat) : Except String (List Nat) :=
  let aP := padToNBytes a 2
  let bP := padToNBytes b 2
  let resLen := (padToNBytes (List.replicate (a.length + b.length) 0) 2).length
  (mulLanes (bytesToLanesLS aP.reverse) (bytesToLanesLS bP.reverse) 0 1
      (resLen / 2)).map
    (fun lanes => (lanesToBytesLS lanes).reverse)

/-- Proof device (not part of the source): the pure pair-product sum
the inner mul loop accumulates for output lane r, i counting candidate
a-lanes downward; a pair contributes when its b-lane index r + 1 - i is
within the b lane list. -/
def convFrom (aL bL : List Nat) (r : Nat) : Nat → Nat
  | 0 => 0
  | i + 1 =>
      (if 1 ≤ r + 1 - (i + 1) ∧ r + 1 - (i + 1) ≤ bL.length then
        laneGet aL (i + 1) * laneGet bL (r + 1 - (i + 1)) else 0)
      + convFrom aL bL r i

/-- Proof device: the full convolution coefficient of output lane r. -/
def convAt (aL bL : List Nat) (r : Nat) : Nat := convFrom aL bL r r

/-- Proof device: the value of the convolution tail from lane r on,
over `fuel` output lanes. -/
def tailConv (aL bL : List Nat) : Nat → Nat → Nat
  | _, 0 => 0
  | r, fuel + 1 => convAt aL bL r + 65536 * tailConv aL bL (r + 1) fuel

/-- Proof device: the partial base-65536 value of the b lanes from lane
r on, over `fuel` lanes. -/
def laneSum (bL : List Nat) : Nat → Nat → Nat
  | _, 0 => 0
  | r, fuel + 1 =>
      (if 1 ≤ r ∧ r ≤ bL.length then laneGet bL r else 0)
      + 65536 * laneSum bL (r + 1) fuel

/-- Modelled from the spec: the platform UTF-8 encoder BigNum.ts
`parseUTF` delegates to (`unescape(encodeURIComponent(s))` turns the
string into its standard UTF-8 byte sequence).  Each Unicode scalar
value becomes its 1-4 byte sequence, written here in the arithmetic
form of the standard bit layout. -/
def utf8EncodeChar (c : Char) : List Nat :=
  let n := c.toNat
  if n < 0x80 then [n]
  else if n < 0x800 then [0xC0 + n / 64, 0x80 + n % 64]
  else if n < 0x10000 then
    [0xE0 + n / 4096, 0x80 + n / 64 % 64, 0x80 + n % 64]
  else
    [0xF0 + n / 262144, 0x80 + n / 4096 % 64, 0x80 + n / 64 % 64, 0x80 + n % 64]

/-- BigNum.ts `parseUTF`: the text's UTF-8 byte sequence becomes the
magnitude directly, and the negative flag is 0. -/
def parseUTF (s : List Char) : List Nat × Bool :=
  ((s.map utf8EncodeChar).flatten, false)

/-- Modelled from the spec: the strict platform UTF-8 decoder the `utf`
getter delegates to (`decodeURIComponent(escape(...))`): a lead byte
determines the sequence length, continuation bytes must carry the 10
prefix, and overlong forms, surrogates and values beyond U+10FFFF are
rejected — the getter maps any failure to a FormatError.  The recursion
is paced by a fuel counter that ticks once per decoded character; every
character consumes at least one byte, so starting the fuel at the byte
count (as `utf8Decode` below does) can never exhaust it before the
input does, and the out-of-fuel branch is unreachable. -/
def utf8DecodeFuel : Nat → List Nat → Except String (List Char)
  | _, [] => .ok []
  | 0, _ :: _ => .error "FormatError"
  | fuel + 1, b :: rest =>
      if b < 0x80 then (utf8DecodeFuel fuel rest).map (fun cs => Char.ofNat b :: cs)
      else if b < 0xC0 then .error "FormatError"
      else if b < 0xE0 then
        match rest with
        | b2 :: rest2 =>
            if 0x80 ≤ b2 ∧ b2 < 0xC0 then
              if 0x80 ≤ (b - 0xC0) * 64 + (b2 - 0x80) then
                (utf8DecodeFuel fuel rest2).map
                  (fun cs => Char.ofNat ((b - 0xC0) * 64 + (b2 - 0x80)) :: cs)
              else .error "FormatError"
            else .error "FormatError"
        | _ => .error "FormatError"
      else if b < 0xF0 then
        match rest with
        | b2 :: b3 :: rest2 =>
            if (0x80 ≤ b2 ∧ b2 < 0xC0) ∧ (0x80 ≤ b3 ∧ b3 < 0xC0) then
              if 0x800 ≤ (b - 0xE0) * 4096 + (b2 - 0x80) * 64 + (b3 - 0x80)
                  ∧ ¬(0xD800 ≤ (b - 0xE0) * 4096 + (b2 - 0x80) * 64 + (b3 - 0x80)
                      ∧ (b - 0xE0) * 4096 + (b2 - 0x80) * 64 + (b3 - 0x80) ≤ 0xDFFF) then
                (utf8DecodeFuel fuel rest2).map
                  (fun cs =>
                    Char.ofNat ((b - 0xE0) * 4096 + (b2 - 0x80) * 64 + (b3 - 0x80)) :: cs)
              else .error "FormatError"
            else .error "FormatError"
        | _ => .error "FormatError"
      else if b < 0xF8 then
        match rest with
        | b2 :: b3 :: b4 :: rest2 =>
            if (0x80 ≤ b2 ∧ b2 < 0xC0) ∧ (0x80 ≤ b3 ∧ b3 < 0xC0)
                ∧ (0x80 ≤ b4 ∧ b4 < 0xC0) then
              if 0x10000 ≤ (b - 0xF0) * 262144 + (b2 - 0x80) * 4096
                    + (b3 - 0x80) * 64 + (b4 - 0x80)
                  ∧ (b - 0xF0) * 262144 + (b2 - 0x80) * 4096
                    + (b3 - 0x80) * 64 + (b4 - 0x80) < 0x110000 then
                (utf8DecodeFuel fuel rest2).map
                  (fun cs =>
                    Char.ofNat ((b - 0xF0) * 262144 + (b2 - 0x80) * 4096
                      + (b3 - 0x80) * 64 + (b4 - 0x80)) :: cs)
              else .error "FormatError"
            else .error "FormatError"
        | _ => .error "FormatError"
      else .error "FormatError"

/-- The strict UTF-8 decoder: fuel starts at the byte count, which per
the argument above is always sufficient. -/
def utf8Decode (l : List Nat) : Except String (List Char) :=
  utf8DecodeFuel l.length l

/-- BigNum.ts `utf` getter: a negative value is rejected with a
FormatError, otherwise the magnitude's bytes are decoded as UTF-8. -/
def utfGetter (v : List Nat × Bool) : Except String (List Char) :=
  if v.2 then .error "FormatError: negative"
  else utf8Decode v.1

/-- A heap of ArrayBuffers addressed by index: the aliasing model for
the BigNum constructor (an ArrayBuffer argument is a reference into the
caller's heap, not a value). -/
structure Store where
  bufs : List (List Nat)

/-- Read the buffer a reference designates. -/
def readBuf (s : Store) (ref : Nat) : List Nat := s.bufs.getD ref []

/-- Overwrite the buffer a reference designates. -/
def writeBuf (s : Store) (ref : Nat) (l : List Nat) : Store := ⟨s.bufs.set ref l⟩

/-- The BigNum.ts constructor on an ArrayBuffer argument: with the 'le'
endianness tag the caller's buffer is reversed in place
(`new Uint8Array(number).reverse()` mutates the underlying
ArrayBuffer), and the instance stores the same reference
(`this.buffer = number`, no clone — the source's own TODO notes this).
Returns the updated store and the reference the BigNum holds. -/
def bigNumFromBuffer (s : Store) (ref : Nat) (le : Bool) : Store × Nat :=
  (if le then writeBuf s ref (readBuf s ref).reverse else s, ref)

-- ===================================================================
-- Theorems
-- ===================================================================

theorem valueLS_lt (base : Nat) (hb : 0 < base) :
    ∀ l : List Nat, (∀ b ∈ l, b < base) → valueLS base l < base ^ l.length := by
  intro l
  induction l with
  | nil => intro _; simp [valueLS, hb]
  | cons x xs ih =>
      intro h
      have hx : x < base := h x (by simp)
      have hxs := ih (fun b hbm => h b (by simp [hbm]))
      simp only [valueLS, List.length_cons, pow_succ]
      calc x + base * valueLS base xs
          ≤ (base - 1) + base * valueLS base xs := by omega
        _ < base * (valueLS base xs + 1) := by
            rw [Nat.mul_add, Nat.mul_one]; omega
        _ ≤ base * base ^ xs.length := by
            have : valueLS base xs + 1 ≤ base ^ xs.length := hxs
            exact Nat.mul_le_mul_left base this
        _ = base ^ xs.length * base := by ring

theorem valueLS_append (base : Nat) (l1 l2 : List Nat) :
    valueLS base (l1 ++ l2) = valueLS base l1 + base ^ l1.length * valueLS base l2 := by
  induction l1 with
  | nil => simp [valueLS]
  | cons x xs ih => simp [valueLS, ih, pow_succ]; ring

theorem value_nil : value [] = 0 := rfl

theorem value_cons (x : Nat) (xs : List Nat) :
    value (x :: xs) = x * 256 ^ xs.length + value xs := by
  simp [value, List.reverse_cons, valueLS_append, valueLS]; ring

theorem value_lt (l : List Nat) (h : ValidBytes l) : value l < 256 ^ l.length := by
  have := valueLS_lt 256 (by norm_num) l.reverse (by
    intro b hbm; exact h b (List.mem_reverse.mp hbm))
  simpa [value] using this

theorem value_replicate_zero (n : Nat) : value (List.replicate n 0) = 0 := by
  induction n with
  | zero => rfl
  | succ k ih => rw [List.replicate_succ, value_cons, ih]; ring

theorem value_zero_append (k : Nat) (l : List Nat) :
    value (List.replicate k 0 ++ l) = value l := by
  induction k with
  | zero => simp
  | succ j ih => rw [List.replicate_succ, List.cons_append, value_cons, ih]; ring

theorem spaceShipLoop_correct (longIsA : Bool) :
    ∀ long short : List Nat, ValidBytes long → ValidBytes short →
    short.length ≤ long.length →
    spaceShipLoop long short (long.length - short.length) longIsA =
      if value short < value long then (if longIsA then 1 else -1)
      else if value long = value short then 0
      else (if longIsA then -1 else 1) := by
  intro long
  induction long with
  | nil =>
      intro short _ _ hlen
      have : short = [] := List.eq_nil_of_length_eq_zero (Nat.le_zero.mp hlen)
      subst this
      simp [spaceShipLoop, value_nil]
  | cons x rest ih =>
      intro short hvl hvs hlen
      by_cases hsh : short.length ≤ rest.length
      · -- still within the length difference: diff ≥ 1
        have hdiff : (x :: rest).length - short.length = (rest.length - short.length) + 1 := by
          simp only [List.length_cons]; omega
        rw [hdiff]
        by_cases hx : x = 0
        · subst hx
          have hv : value (0 :: rest) = value rest := by
            rw [value_cons]; ring_nf
          have hstep : spaceShipLoop (0 :: rest) short ((rest.length - short.length) + 1) longIsA
              = spaceShipLoop rest short (rest.length - short.length) longIsA := by
            simp [spaceShipLoop]
          rw [hstep, ih short (fun b hbm => hvl b (by simp [hbm])) hvs hsh, hv]
        · -- the long buffer wins: its value is at least 256 ^ rest.length
          have hbig : value short < value (x :: rest) := by
            have h1 : value short < 256 ^ short.length := value_lt short hvs
            have h2 : (256 : Nat) ^ short.length ≤ 256 ^ rest.length :=
              Nat.pow_le_pow_right (by norm_num) hsh
            have h3 : 256 ^ rest.length ≤ x * 256 ^ rest.length := by
              have hx1 : 1 ≤ x := Nat.one_le_iff_ne_zero.mpr hx
              calc (256 : Nat) ^ rest.length = 1 * 256 ^ rest.length := by ring
                _ ≤ x * 256 ^ rest.length := Nat.mul_le_mul_right _ hx1
            rw [value_cons]; omega
          have hstep : spaceShipLoop (x :: rest) short ((rest.length - short.length) + 1) longIsA
              = (if longIsA then 1 else -1) := by
            simp [spaceShipLoop, hx]
          rw [hstep, if_pos hbig]
      · -- aligned region: short = y :: srest with equal tail lengths
        have hlen2 : short.length = rest.length + 1 := by
          simp only [List.length_cons] at hlen; omega
        obtain ⟨y, srest, rfl⟩ : ∃ y srest, short = y :: srest := by
          cases short with
          | nil => simp at hlen2
          | cons y srest => exact ⟨y, srest, rfl⟩
        have hsl : srest.length = rest.length := by
          simp only [List.length_cons] at hlen2; omega
        have hdiff : (x :: rest).length - (y :: srest).length = 0 := by
          simp only [List.length_cons]; omega
        rw [hdiff]
        have hr : value rest < 256 ^ rest.length :=
          value_lt rest (fun b hbm => hvl b (by simp [hbm]))
        have hs : value srest < 256 ^ rest.length := by
          have := value_lt srest (fun b hbm => hvs b (by simp [hbm]))
          rwa [hsl] at this
        by_cases hxy : x = y
        · subst hxy
          have hstep : spaceShipLoop (x :: rest) (x :: srest) 0 longIsA
              = spaceShipLoop rest srest 0 longIsA := by
            simp [spaceShipLoop]
          have hz : rest.length - srest.length = 0 := by omega
          have hih := ih srest (fun b hbm => hvl b (by simp [hbm]))
            (fun b hbm => hvs b (by simp [hbm])) (le_of_eq hsl)
          rw [hz] at hih
          rw [hstep, hih, value_cons, value_cons, hsl]
          simp only [Nat.add_lt_add_iff_left, Nat.add_right_inj]
        · have hstep : spaceShipLoop (x :: rest) (y :: srest) 0 longIsA
              = (if decide (x > y) = longIsA then 1 else -1) := by
            simp [spaceShipLoop, hxy]
          rw [hstep]
          by_cases hgt : x > y
          · have hbig : value (y :: srest) < value (x :: rest) := by
              rw [value_cons, value_cons, hsl]
              calc y * 256 ^ rest.length + value srest
                  < y * 256 ^ rest.length + 256 ^ rest.length := by omega
                _ = (y + 1) * 256 ^ rest.length := by ring
                _ ≤ x * 256 ^ rest.length := Nat.mul_le_mul_right _ (by omega)
                _ ≤ x * 256 ^ rest.length + value rest := Nat.le_add_right _ _
            rw [if_pos hbig]
            cases longIsA <;> simp [hgt]
          · have hlt2 : value (x :: rest) < value (y :: srest) := by
              rw [value_cons, value_cons, hsl]
              calc x * 256 ^ rest.length + value rest
                  < x * 256 ^ rest.length + 256 ^ rest.length := by omega
                _ = (x + 1) * 256 ^ rest.length := by ring
                _ ≤ y * 256 ^ rest.length := Nat.mul_le_mul_right _ (by omega)
                _ ≤ y * 256 ^ rest.length + value srest := Nat.le_add_right _ _
            have hc1 : ¬ value (y :: srest) < value (x :: rest) := by omega
            have hc2 : ¬ value (x :: rest) = value (y :: srest) := by omega
            rw [if_neg hc1, if_neg hc2]
            cases longIsA <;> simp [hgt]

theorem spaceShip_correct (a b : List Nat) (ha : ValidBytes a) (hb : ValidBytes b) :
    spaceShip a b =
      if value a < value b then -1 else if value a = value b then 0 else 1 := by
  unfold spaceShip
  by_cases h : a.length > b.length
  · rw [if_pos h, spaceShipLoop_correct true a b ha hb (le_of_lt h)]
    split_ifs <;> first | contradiction | omega
  · rw [if_neg h, spaceShipLoop_correct false b a hb ha (by omega)]
    split_ifs <;> first | contradiction | omega

theorem addLoopLS_correct : ∀ (long short : List Nat) (carry : Nat),
    (∀ b ∈ long, b < 256) → (∀ b ∈ short, b < 256) →
    short.length ≤ long.length → carry ≤ 1 →
    valueLS 256 (addLoopLS long short carry).1
        + 256 ^ long.length * (addLoopLS long short carry).2
      = valueLS 256 long + valueLS 256 short + carry
    ∧ (addLoopLS long short carry).1.length = long.length
    ∧ (∀ b ∈ (addLoopLS long short carry).1, b < 256)
    ∧ (addLoopLS long short carry).2 ≤ 1 := by
  intro long
  induction long with
  | nil =>
      intro short carry _ _ hlen hc
      have : short = [] := List.eq_nil_of_length_eq_zero (Nat.le_zero.mp hlen)
      subst this
      simp [addLoopLS, valueLS, hc]
  | cons x xs ih =>
      intro short carry hl hsv hlen hc
      have hx : x < 256 := hl x (by simp)
      cases short with
      | nil =>
          obtain ⟨hv, hlen1, hvb, hc1⟩ := ih [] (if x + carry > 255 then 1 else 0)
            (fun b hbm => hl b (by simp [hbm])) (by simp)
            (by simp) (by split <;> simp)
          have hunfold : addLoopLS (x :: xs) [] carry
              = ((x + carry) % 256
                    :: (addLoopLS xs [] (if x + carry > 255 then 1 else 0)).1,
                 (addLoopLS xs [] (if x + carry > 255 then 1 else 0)).2) := rfl
          rw [hunfold]
          refine ⟨?_, by simp [hlen1], ?_, hc1⟩
          · simp only [valueLS, List.length_cons, pow_succ]
            have e1 : 256 ^ xs.length * 256
                  * (addLoopLS xs [] (if x + carry > 255 then 1 else 0)).2
                = 256 * (256 ^ xs.length
                  * (addLoopLS xs [] (if x + carry > 255 then 1 else 0)).2) := by
              ring
            by_cases hover : 255 < x + carry
            · simp only [if_pos hover] at hv e1 ⊢; try simp only [valueLS] at hv ⊢
              rw [e1]; omega
            · simp only [if_neg hover] at hv e1 ⊢; try simp only [valueLS] at hv ⊢
              rw [e1]; omega
          · intro b hbm
            simp only [List.mem_cons] at hbm
            rcases hbm with h1 | h2
            · omega
            · exact hvb b h2
      | cons y ys =>
          have hy : y < 256 := hsv y (by simp)
          obtain ⟨hv, hlen1, hvb, hc1⟩ := ih ys (if x + y + carry > 255 then 1 else 0)
            (fun b hbm => hl b (by simp [hbm]))
            (fun b hbm => hsv b (by simp [hbm]))
            (by simp at hlen ⊢; omega) (by split <;> simp)
          have hunfold : addLoopLS (x :: xs) (y :: ys) carry
              = ((x + y + carry) % 256
                    :: (addLoopLS xs ys (if x + y + carry > 255 then 1 else 0)).1,
                 (addLoopLS xs ys (if x + y + carry > 255 then 1 else 0)).2) := rfl
          rw [hunfold]
          refine ⟨?_, by simp [hlen1], ?_, hc1⟩
          · simp only [valueLS, List.length_cons, pow_succ]
            have e1 : 256 ^ xs.length * 256
                  * (addLoopLS xs ys (if x + y + carry > 255 then 1 else 0)).2
                = 256 * (256 ^ xs.length
                  * (addLoopLS xs ys (if x + y + carry > 255 then 1 else 0)).2) := by
              ring
            by_cases hover : 255 < x + y + carry
            · simp only [if_pos hover] at hv e1 ⊢; try simp only [valueLS] at hv ⊢
              rw [e1]; omega
            · simp only [if_neg hover] at hv e1 ⊢; try simp only [valueLS] at hv ⊢
              rw [e1]; omega
          · intro b hbm
            simp only [List.mem_cons] at hbm
            rcases hbm with h1 | h2
            · omega
            · exact hvb b h2

theorem add_correct (a b : List Nat) (ha : ValidBytes a) (hb : ValidBytes b) :
    value (add a b) = value a + value b
    ∧ ValidBytes (add a b)
    ∧ ((add a b).length = max a.length b.length
        ∨ (add a b).length = max a.length b.length + 1)
    ∧ ((add a b).length = max a.length b.length + 1
        ↔ 256 ^ max a.length b.length ≤ value a + value b) := by
  unfold add
  by_cases h : a.length > b.length
  · rw [if_pos h]
    simp only
    have hmain := addLoopLS_correct a.reverse b.reverse 0
      (fun c hc => ha c (List.mem_reverse.mp hc))
      (fun c hc => hb c (List.mem_reverse.mp hc))
      (by simp; omega) (by omega)
    obtain ⟨hv, hlen1, hvb, hc1⟩ := hmain
    set r := addLoopLS a.reverse b.reverse 0 with hr
    have hmax : max a.length b.length = a.length := by omega
    have hvs : value r.1.reverse = valueLS 256 r.1 := by
      simp [value]
    have hva : value a = valueLS 256 a.reverse := rfl
    have hvbv : value b = valueLS 256 b.reverse := rfl
    have hrl : r.1.reverse.length = a.length := by
      simpa using hlen1
    by_cases hcz : r.2 = 0
    · rw [if_pos hcz]
      have hvz : value r.1.reverse = value a + value b := by
        rw [hvs, hva, hvbv]
        have := hv
        rw [hcz] at this
        simpa using this
      refine ⟨hvz, ?_, by left; simpa [hmax] using hrl, ?_⟩
      · intro c hc; exact hvb c (List.mem_reverse.mp hc)
      · constructor
        · intro hL; rw [hrl] at hL; omega
        · intro hge
          exfalso
          have hlt : value r.1.reverse < 256 ^ a.length := by
            have := value_lt r.1.reverse (fun c hc => hvb c (List.mem_reverse.mp hc))
            rwa [hrl] at this
          rw [hvz] at hlt
          rw [hmax] at hge
          omega
    · rw [if_neg hcz]
      have hc2 : r.2 = 1 := by omega
      have hvz : value (r.2 :: r.1.reverse) = value a + value b := by
        rw [value_cons, hrl, hvs, hva, hvbv]
        have := hv
        rw [hc2] at this ⊢
        simp only [List.length_reverse] at this
        omega
      refine ⟨hvz, ?_, by right; simp [hmax, hrl], ?_⟩
      · intro c hc
        simp only [List.mem_cons] at hc
        rcases hc with h1 | h2
        · omega
        · exact hvb c (List.mem_reverse.mp h2)
      · constructor
        · intro _
          rw [← hvz, value_cons, hrl, hc2, hmax]
          have : (0:Nat) ≤ value r.1.reverse := Nat.zero_le _
          omega
        · intro _; simp [hmax, hrl]
  · rw [if_neg h]
    simp only
    have hmain := addLoopLS_correct b.reverse a.reverse 0
      (fun c hc => hb c (List.mem_reverse.mp hc))
      (fun c hc => ha c (List.mem_reverse.mp hc))
      (by simp; omega) (by omega)
    obtain ⟨hv, hlen1, hvb, hc1⟩ := hmain
    set r := addLoopLS b.reverse a.reverse 0 with hr
    have hmax : max a.length b.length = b.length := by omega
    have hvs : value r.1.reverse = valueLS 256 r.1 := by
      simp [value]
    have hva : value a = valueLS 256 a.reverse := rfl
    have hvbv : value b = valueLS 256 b.reverse := rfl
    have hrl : r.1.reverse.length = b.length := by
      simpa using hlen1
    by_cases hcz : r.2 = 0
    · rw [if_pos hcz]
      have hvz : value r.1.reverse = value a + value b := by
        rw [hvs, hva, hvbv]
        have := hv
        rw [hcz] at this
        simp at this
        omega
      refine ⟨hvz, ?_, by left; simpa [hmax] using hrl, ?_⟩
      · intro c hc; exact hvb c (List.mem_reverse.mp hc)
      · constructor
        · intro hL; rw [hrl] at hL; omega
        · intro hge
          exfalso
          have hlt : value r.1.reverse < 256 ^ b.length := by
            have := value_lt r.1.reverse (fun c hc => hvb c (List.mem_reverse.mp hc))
            rw [hrl] at this
            exact this
          rw [hvz] at hlt
          rw [hmax] at hge
          omega
    · rw [if_neg hcz]
      have hc2 : r.2 = 1 := by omega
      have hvz : value (r.2 :: r.1.reverse) = value a + value b := by
        rw [value_cons, hrl, hvs, hva, hvbv]
        have := hv
        rw [hc2] at this ⊢
        simp only [List.length_reverse] at this
        omega
      refine ⟨hvz, ?_, by right; simp [hmax, hrl], ?_⟩
      · intro c hc
        simp only [List.mem_cons] at hc
        rcases hc with h1 | h2
        · omega
        · exact hvb c (List.mem_reverse.mp h2)
      · constructor
        · intro _
          rw [← hvz, value_cons, hrl, hc2, hmax]
          have : (0:Nat) ≤ value r.1.reverse := Nat.zero_le _
          omega
        · intro _; simp [hmax, hrl]

theorem subLoopLS_correct : ∀ (a b : List Nat) (carry : Int),
    (∀ v ∈ a, v < 256) → (∀ v ∈ b, v < 256) → b.length ≤ a.length →
    (carry = 0 ∨ carry = -1) →
    ((valueLS 256 (subLoopLS a b carry).1 : Int)
        = (valueLS 256 a : Int) - (valueLS 256 b : Int) + carry
          - (256 : Int) ^ a.length * (subLoopLS a b carry).2)
    ∧ ((subLoopLS a b carry).2 = 0 ∨ (subLoopLS a b carry).2 = -1)
    ∧ (subLoopLS a b carry).1.length = a.length
    ∧ (∀ v ∈ (subLoopLS a b carry).1, v < 256) := by
  intro a
  induction a with
  | nil =>
      intro b carry _ _ hlen hc
      have : b = [] := List.eq_nil_of_length_eq_zero (Nat.le_zero.mp hlen)
      subst this
      refine ⟨?_, hc, rfl, by simp [subLoopLS]⟩
      simp [subLoopLS, valueLS]
  | cons x xs ih =>
      intro b carry hav hbv hlen hc
      have hx : x < 256 := hav x (by simp)
      cases b with
      | nil =>
          obtain ⟨hv, hfc, hlen1, hvb⟩ :=
            ih [] (if carry + (x : Int) < 0 then (-1 : Int) else 0)
              (fun v hvm => hav v (by simp [hvm])) (by simp) (by simp)
              (by split
                  · right; rfl
                  · left; rfl)
          have hunfold : subLoopLS (x :: xs) [] carry
              = (((carry + (x : Int)) % 256).toNat
                    :: (subLoopLS xs [] (if carry + (x : Int) < 0 then (-1 : Int) else 0)).1,
                 (subLoopLS xs [] (if carry + (x : Int) < 0 then (-1 : Int) else 0)).2) := rfl
          rw [hunfold]
          refine ⟨?_, hfc, by simp only [List.length_cons, hlen1], ?_⟩
          · by_cases hneg : carry + (x : Int) < 0
            · simp only [if_pos hneg] at hv hfc ⊢
              simp only [valueLS, List.length_cons, pow_succ]
              try simp only [valueLS] at hv
              have e1 : (256 : Int) ^ xs.length * 256 * (subLoopLS xs [] (-1)).2
                  = 256 * ((256 : Int) ^ xs.length * (subLoopLS xs [] (-1)).2) := by
                ring
              push_cast
              rw [e1]
              omega
            · simp only [if_neg hneg] at hv hfc ⊢
              simp only [valueLS, List.length_cons, pow_succ]
              try simp only [valueLS] at hv
              have e1 : (256 : Int) ^ xs.length * 256 * (subLoopLS xs [] 0).2
                  = 256 * ((256 : Int) ^ xs.length * (subLoopLS xs [] 0).2) := by
                ring
              push_cast
              rw [e1]
              omega
          · intro v hvm
            simp only [List.mem_cons] at hvm
            rcases hvm with h1 | h2
            · have h3 : (carry + (x : Int)) % 256 < 256 :=
                Int.emod_lt_of_pos _ (by norm_num)
              subst h1
              omega
            · exact hvb v h2
      | cons y ys =>
          have hy : y < 256 := hbv y (by simp)
          obtain ⟨hv, hfc, hlen1, hvb⟩ :=
            ih ys (if carry + (x : Int) - (y : Int) < 0 then (-1 : Int) else 0)
              (fun v hvm => hav v (by simp [hvm]))
              (fun v hvm => hbv v (by simp [hvm]))
              (by simp at hlen ⊢; omega)
              (by split
                  · right; rfl
                  · left; rfl)
          have hunfold : subLoopLS (x :: xs) (y :: ys) carry
              = (((carry + (x : Int) - (y : Int)) % 256).toNat
                    :: (subLoopLS xs ys
                        (if carry + (x : Int) - (y : Int) < 0 then (-1 : Int) else 0)).1,
                 (subLoopLS xs ys
                     (if carry + (x : Int) - (y : Int) < 0 then (-1 : Int) else 0)).2) := rfl
          rw [hunfold]
          refine ⟨?_, hfc, by simp only [List.length_cons, hlen1], ?_⟩
          · by_cases hneg : carry + (x : Int) - (y : Int) < 0
            · simp only [if_pos hneg] at hv hfc ⊢
              simp only [valueLS, List.length_cons, pow_succ]
              try simp only [valueLS] at hv
              have e1 : (256 : Int) ^ xs.length * 256 * (subLoopLS xs ys (-1)).2
                  = 256 * ((256 : Int) ^ xs.length * (subLoopLS xs ys (-1)).2) := by
                ring
              push_cast
              rw [e1]
              omega
            · simp only [if_neg hneg] at hv hfc ⊢
              simp only [valueLS, List.length_cons, pow_succ]
              try simp only [valueLS] at hv
              have e1 : (256 : Int) ^ xs.length * 256 * (subLoopLS xs ys 0).2
                  = 256 * ((256 : Int) ^ xs.length * (subLoopLS xs ys 0).2) := by
                ring
              push_cast
              rw [e1]
              omega
          · intro v hvm
            simp only [List.mem_cons] at hvm
            rcases hvm with h1 | h2
            · have h3 : (carry + (x : Int) - (y : Int)) % 256 < 256 :=
                Int.emod_lt_of_pos _ (by norm_num)
              subst h1
              omega
            · exact hvb v h2

theorem subEffB_of_le (aLS bLS : List Nat) (h : bLS.length ≤ aLS.length) :
    subEffB aLS bLS = bLS := by
  simp [subEffB, h]

theorem subICore_correct (a b : List Nat) (ha : ValidBytes a) (hb : ValidBytes b)
    (hle : value b ≤ value a) (hlen : b.length ≤ a.length) :
    value (subICore a b) + value b = value a
    ∧ (subICore a b).length = a.length
    ∧ ValidBytes (subICore a b)
    ∧ (value a = value b → subICore a b = List.replicate a.length 0) := by
  unfold subICore
  have hss := spaceShip_correct a b ha hb
  by_cases heq : value a = value b
  · have h0 : spaceShip a b = 0 := by
      rw [hss, if_neg (by omega), if_pos heq]
    rw [if_pos h0]
    refine ⟨?_, by simp, ?_, fun _ => rfl⟩
    · rw [value_replicate_zero]; omega
    · intro v hvm
      have := List.eq_of_mem_replicate hvm
      omega
  · have h0 : ¬ spaceShip a b = 0 := by
      rw [hss, if_neg (by omega), if_neg heq]
      norm_num
    rw [if_neg h0]
    rw [subEffB_of_le a.reverse b.reverse (by simpa using hlen)]
    obtain ⟨hv, hfc, hlen1, hvb⟩ := subLoopLS_correct a.reverse b.reverse 0
      (fun v hvm => ha v (List.mem_reverse.mp hvm))
      (fun v hvm => hb v (List.mem_reverse.mp hvm))
      (by simpa using hlen) (Or.inl rfl)
    set R := subLoopLS a.reverse b.reverse 0 with hR
    have hva : value (R.1.reverse) = valueLS 256 R.1 := by simp [value]
    have hlen2 : R.1.reverse.length = a.length := by simpa using hlen1
    have hbound : valueLS 256 R.1 < 256 ^ a.length := by
      have := valueLS_lt 256 (by norm_num) R.1 hvb
      rwa [hlen1, List.length_reverse] at this
    have hAv : (value a : Int) = (valueLS 256 a.reverse : Int) := rfl
    have hBv : (value b : Int) = (valueLS 256 b.reverse : Int) := rfl
    have hlt : value b < value a := by omega
    have hfc0 : R.2 = 0 := by
      rcases hfc with h | h
      · exact h
      · exfalso
        rw [h] at hv
        simp only [List.length_reverse] at hv
        have hx : (valueLS 256 R.1 : Int)
            = (value a : Int) - value b + 256 ^ a.length := by
          rw [hAv, hBv]; omega
        have h2 : ((256 : Nat) ^ a.length : Int) = (256 : Int) ^ a.length := by
          push_cast; ring
        omega
    rw [hfc0] at hv
    simp only [List.length_reverse, mul_zero, sub_zero, add_zero] at hv
    refine ⟨?_, hlen2, ?_, fun hcontra => absurd hcontra heq⟩
    · rw [hva]
      have : (valueLS 256 R.1 : Int) = (value a : Int) - value b := by
        rw [hAv, hBv]; omega
      omega
    · intro v hvm
      exact hvb v (List.mem_reverse.mp hvm)

theorem ValidBytes_pad (k : Nat) (a : List Nat) (ha : ValidBytes a) :
    ValidBytes (List.replicate k 0 ++ a) := by
  intro v hv
  rcases List.mem_append.mp hv with h | h
  · rw [List.eq_of_mem_replicate h]; norm_num
  · exact ha v h

/-- Claim C6: the three-way comparison returns -1, 0 or 1 matching the
order of the numeric values, is invariant under prepending leading zero
bytes to either operand, and in particular the buffers parsed from the
hex strings "00ab" and "ab" compare equal. -/
theorem C6_compare_total_order (a b : List Nat)
    (ha : ValidBytes a) (hb : ValidBytes b) :
    (spaceShip a b = -1 ↔ value a < value b)
    ∧ (spaceShip a b = 0 ↔ value a = value b)
    ∧ (spaceShip a b = 1 ↔ value b < value a)
    ∧ (∀ k j : Nat,
        spaceShip (List.replicate k 0 ++ a) (List.replicate j 0 ++ b)
          = spaceShip a b)
    ∧ (parseString ("00ab".toList) = .ok ([0x00, 0xab], false)
        ∧ parseString ("ab".toList) = .ok ([0xab], false)
        ∧ eq [0x00, 0xab] [0xab] = true) := by
  have hss := spaceShip_correct a b ha hb
  refine ⟨?_, ?_, ?_, ?_, by decide⟩
  · rw [hss]; split_ifs <;> simp_all <;> omega
  · rw [hss]; split_ifs <;> simp_all <;> omega
  · rw [hss]; split_ifs <;> simp_all <;> omega
  · intro k j
    rw [spaceShip_correct _ _ (ValidBytes_pad k a ha) (ValidBytes_pad j b hb),
      hss, value_zero_append, value_zero_append]

theorem C6_compare_total_order_witness :
    ValidBytes [0x00, 0x00, 0x01, 0x01, 0xff, 0xff]
    ∧ ValidBytes [0xff, 0x0f, 0xff]
    ∧ (spaceShip [0x00, 0x00, 0x01, 0x01, 0xff, 0xff] [0xff, 0x0f, 0xff] = 1
        ↔ value [0xff, 0x0f, 0xff] < value [0x00, 0x00, 0x01, 0x01, 0xff, 0xff]) :=
  ⟨by decide, by decide,
    (C6_compare_total_order [0x00, 0x00, 0x01, 0x01, 0xff, 0xff] [0xff, 0x0f, 0xff]
      (by decide) (by decide)).2.2.1⟩

/-- Claim C4: `add` returns the byte-wise sum with carry propagation;
its length is max(len a, len b), grown by exactly one leading byte iff
a final carry remains (iff the sum needs more than max(len a, len b)
bytes). -/
theorem C4_add_value_and_length (a b : List Nat)
    (ha : ValidBytes a) (hb : ValidBytes b) :
    value (add a b) = value a + value b
    ∧ ((add a b).length = max a.length b.length
        ∨ (add a b).length = max a.length b.length + 1)
    ∧ ((add a b).length = max a.length b.length + 1
        ↔ 256 ^ max a.length b.length ≤ value a + value b) := by
  obtain ⟨h1, _, h3, h4⟩ := add_correct a b ha hb
  exact ⟨h1, h3, h4⟩

theorem C4_add_value_and_length_witness :
    ValidBytes [0x00, 0x00, 0x01, 0x01, 0xff, 0xff]
    ∧ ValidBytes [0xff, 0x0f, 0xff]
    ∧ value (add [0x00, 0x00, 0x01, 0x01, 0xff, 0xff] [0xff, 0x0f, 0xff])
        = value [0x00, 0x00, 0x01, 0x01, 0xff, 0xff] + value [0xff, 0x0f, 0xff] :=
  ⟨by decide, by decide,
    (C4_add_value_and_length [0x00, 0x00, 0x01, 0x01, 0xff, 0xff] [0xff, 0x0f, 0xff]
      (by decide) (by decide)).1⟩

/-- Claim C5: `sub`/`subI` raise the OverflowError exactly when the
comparison puts a below b, i.e. exactly when value a < value b; no
value is returned in that case, and a failed call leaves the target
buffer byte-for-byte unchanged (the check precedes every write). -/
theorem C5_sub_overflow_guard (a b : List Nat)
    (ha : ValidBytes a) (hb : ValidBytes b) :
    ((∃ e, sub a b = .error e) ↔ value a < value b)
    ∧ ((∃ e, subI a b = .error e) ↔ value a < value b)
    ∧ ((∃ e, subI a b = .error e) ↔ spaceShip a b < 0)
    ∧ ((subIRun a b).2 = true ↔ value a < value b)
    ∧ ((subIRun a b).2 = true → (subIRun a b).1 = a) := by
  have hss := spaceShip_correct a b ha hb
  have hneg : spaceShip a b < 0 ↔ value a < value b := by
    rw [hss]; split_ifs <;> simp_all <;> omega
  have herr : (∃ e, subI a b = .error e) ↔ value a < value b := by
    constructor
    · intro ⟨e, he⟩
      rw [← hneg]
      by_contra hcon
      unfold subI at he
      rw [if_neg hcon] at he
      exact Except.noConfusion he
    · intro h
      refine ⟨"OverflowError: Result is smaller than 0", ?_⟩
      unfold subI
      rw [if_pos (hneg.mpr h)]
  refine ⟨herr, herr, by rw [herr, hneg], ?_, ?_⟩
  · unfold subIRun
    constructor
    · intro h
      by_cases hlt : spaceShip a b < 0
      · exact hneg.mp hlt
      · exfalso
        unfold subI at h
        rw [if_neg hlt] at h
        simp at h
    · intro h
      unfold subI
      rw [if_pos (hneg.mpr h)]
  · unfold subIRun
    intro h
    by_cases hlt : spaceShip a b < 0
    · unfold subI
      rw [if_pos hlt]
    · exfalso
      unfold subI at h
      rw [if_neg hlt] at h
      simp at h

theorem C5_sub_overflow_guard_witness :
    ValidBytes [0xff, 0x0f, 0xff]
    ∧ ValidBytes [0x00, 0x00, 0x01, 0x01, 0xff, 0xff]
    ∧ ((∃ e, sub [0xff, 0x0f, 0xff] [0x00, 0x00, 0x01, 0x01, 0xff, 0xff] = .error e)
        ↔ value [0xff, 0x0f, 0xff] < value [0x00, 0x00, 0x01, 0x01, 0xff, 0xff]) :=
  ⟨by decide, by decide,
    (C5_sub_overflow_guard [0xff, 0x0f, 0xff] [0x00, 0x00, 0x01, 0x01, 0xff, 0xff]
      (by decide) (by decide)).1⟩

/-- Claim C3 (evaluation at the failing input): for a = 0x02 and
b = 0x000001 — value(a) = 2 >= 1 = value(b), but b is a longer,
zero-padded buffer — `sub` returns the buffer 0x02 unchanged (value 2)
instead of a buffer of value 2 - 1 = 1: the subI loop computes
lengthDifference with Math.abs but indexes arrayB as if arrayA were
the longer buffer, so a longer subtrahend is misaligned. -/
theorem C3_sub_failing_input :
    sub [0x02] [0x00, 0x00, 0x01] = .ok [0x02]
    ∧ value [0x02] = 2
    ∧ value [0x00, 0x00, 0x01] = 1
    ∧ value [0x02]
        ≠ value [0x02] - value [0x00, 0x00, 0x01] := by decide

/-- Claim C8 (counterexample): constructing from "0x123ff8" fails on
the canonical BigNum path (the `x` fails the hex-digit check, a
FormatError), while on the bufferUtil path it succeeds but the hex
accessor returns "0x123ff8" — with the prefix — not "123ff8". -/
theorem C8_hex_counterexample :
    parseString ("0x123ff8".toList) = .error "FormatError"
    ∧ fromHexBU ("0x123ff8".toList) = .ok [0x12, 0x3f, 0xf8]
    ∧ toHexBU [0x12, 0x3f, 0xf8] = "0x123ff8".toList
    ∧ toHexBU [0x12, 0x3f, 0xf8] ≠ "123ff8".toList := by decide

/-- Claim C8 (amended): the BigNum parser accepts the unprefixed
"123ff8" and its hex accessor renders "123ff8" back; the 0x-prefixed
string is accepted only by bufferUtil's fromHex, whose own accessor
returns "0x123ff8". -/
theorem C8_hex_amended :
    parseString ("123ff8".toList) = .ok ([0x12, 0x3f, 0xf8], false)
    ∧ hexBN [0x12, 0x3f, 0xf8] = "123ff8".toList
    ∧ fromHexBU ("0x123ff8".toList) = .ok [0x12, 0x3f, 0xf8]
    ∧ toHexBU [0x12, 0x3f, 0xf8] = "0x123ff8".toList := by decide

set_option maxRecDepth 4000 in
theorem byteBits_facts :
    ∀ x < 256, x < 2 ^ byteBits x ∧ (x ≠ 0 → 2 ^ (byteBits x - 1) ≤ x)
      ∧ byteBits x ≤ 8 := by decide

theorem bitLength_le (l : List Nat) : bitLength l ≤ 8 * l.length := by
  induction l with
  | nil => simp [bitLength]
  | cons x xs ih =>
      simp only [bitLength, List.length_cons]
      split
      · have h8 : byteBits x ≤ 8 := by unfold byteBits; split_ifs <;> omega
        omega
      · omega

theorem value_lt_two_pow_bitLength (l : List Nat) (h : ValidBytes l) :
    value l < 2 ^ bitLength l := by
  induction l with
  | nil => simp [value_nil, bitLength]
  | cons x xs ih =>
      simp only [bitLength]
      by_cases hx : x = 0
      · subst hx
        rw [if_neg (by simp), value_cons]
        simpa using ih (fun v hv => h v (by simp [hv]))
      · rw [if_pos hx, value_cons]
        have hxb : x < 256 := h x (by simp)
        have h1 : x < 2 ^ byteBits x := (byteBits_facts x hxb).1
        have h2 : value xs < 256 ^ xs.length := value_lt xs (fun v hv => h v (by simp [hv]))
        have h3 : (256 : Nat) ^ xs.length = 2 ^ (8 * xs.length) := by
          rw [show (256 : Nat) = 2 ^ 8 by norm_num, ← pow_mul]
        calc x * 256 ^ xs.length + value xs
            < x * 256 ^ xs.length + 256 ^ xs.length := by omega
          _ = (x + 1) * 256 ^ xs.length := by ring
          _ ≤ 2 ^ byteBits x * 256 ^ xs.length := Nat.mul_le_mul_right _ (by omega)
          _ = 2 ^ byteBits x * 2 ^ (8 * xs.length) := by rw [h3]
          _ = 2 ^ (8 * xs.length + byteBits x) := by rw [← pow_add]; ring_nf

theorem bitLength_eq_zero_iff (l : List Nat) (h : ValidBytes l) :
    bitLength l = 0 ↔ value l = 0 := by
  induction l with
  | nil => simp [bitLength, value_nil]
  | cons x xs ih =>
      simp only [bitLength]
      by_cases hx : x = 0
      · subst hx
        rw [if_neg (by simp), value_cons]
        simpa using ih (fun v hv => h v (by simp [hv]))
      · rw [if_pos hx, value_cons]
        have h1 : 1 ≤ byteBits x := by
          unfold byteBits; split_ifs <;> omega
        constructor
        · intro hc; omega
        · intro hc
          exfalso
          have ht : x * 256 ^ xs.length = 0 := by omega
          rcases Nat.mul_eq_zero.mp ht with h2 | h2
          · exact absurd h2 hx
          · have := pow_pos (show (0:Nat) < 256 by norm_num) xs.length
            omega

theorem and_255_eq_mod (t : Nat) : t &&& 0xff = t % 256 := by
  have h := Nat.and_pow_two_sub_one_eq_mod t 8
  norm_num at h
  exact h

theorem shiftRight8_eq_div (t : Nat) : t >>> 8 = t / 256 := by
  have h := Nat.shiftRight_eq_div_pow t 8
  norm_num at h
  exact h

theorem leftShiftILS1_correct : ∀ (l : List Nat) (carry : Nat),
    (∀ v ∈ l, v < 256) → carry < 2 →
    valueLS 256 (leftShiftILS 1 l carry).1
        + 256 ^ l.length * (leftShiftILS 1 l carry).2
      = 2 * valueLS 256 l + carry
    ∧ (leftShiftILS 1 l carry).1.length = l.length
    ∧ (∀ v ∈ (leftShiftILS 1 l carry).1, v < 256)
    ∧ (leftShiftILS 1 l carry).2 < 2 := by
  intro l
  induction l with
  | nil =>
      intro carry _ hc
      exact ⟨by simp [leftShiftILS, valueLS], rfl, by simp [leftShiftILS], hc⟩
  | cons x xs ih =>
      intro carry hl hc
      have hx : x < 256 := hl x (by simp)
      have hsh : x <<< 1 = 2 * x := by rw [Nat.shiftLeft_eq]; ring
      obtain ⟨hv, hlen1, hvb, hc1⟩ := ih ((x <<< 1 + carry) >>> 8)
        (fun v hvm => hl v (by simp [hvm]))
        (by rw [hsh, shiftRight8_eq_div]; omega)
      have hunfold : leftShiftILS 1 (x :: xs) carry
          = (((x <<< 1 + carry) &&& 0xff)
                :: (leftShiftILS 1 xs ((x <<< 1 + carry) >>> 8)).1,
             (leftShiftILS 1 xs ((x <<< 1 + carry) >>> 8)).2) := rfl
      rw [hunfold]
      refine ⟨?_, by simp [hlen1], ?_, hc1⟩
      · simp only [valueLS, List.length_cons, pow_succ]
        rw [and_255_eq_mod, shiftRight8_eq_div, hsh] at *
        have e1 : 256 ^ xs.length * 256
              * (leftShiftILS 1 xs ((2 * x + carry) / 256)).2
            = 256 * (256 ^ xs.length
              * (leftShiftILS 1 xs ((2 * x + carry) / 256)).2) := by
          ring
        rw [e1]
        omega
      · intro v hvm
        simp only [List.mem_cons] at hvm
        rcases hvm with h1 | h2
        · rw [and_255_eq_mod] at h1; omega
        · exact hvb v h2

theorem leftShiftI1_correct (buf : List Nat) (h : ValidBytes buf)
    (hbound : 2 * value buf < 256 ^ buf.length) :
    value (leftShiftI buf 1) = 2 * value buf
    ∧ (leftShiftI buf 1).length = buf.length
    ∧ ValidBytes (leftShiftI buf 1) := by
  obtain ⟨hv, hlen, hvb, hc⟩ := leftShiftILS1_correct buf.reverse 0
    (fun v hvm => h v (List.mem_reverse.mp hvm)) (by norm_num)
  have hvr : value (leftShiftI buf 1)
      = valueLS 256 (leftShiftILS 1 buf.reverse 0).1 := by
    simp [leftShiftI, value]
  have hvbuf : value buf = valueLS 256 buf.reverse := rfl
  simp only [List.length_reverse] at hv hlen
  have hc0 : (leftShiftILS 1 buf.reverse 0).2 = 0 := by
    by_contra hne
    have h1 : (leftShiftILS 1 buf.reverse 0).2 = 1 := by omega
    rw [h1] at hv
    have h2 : valueLS 256 (leftShiftILS 1 buf.reverse 0).1 ≥ 0 := Nat.zero_le _
    omega
  rw [hc0] at hv
  refine ⟨by rw [hvr]; omega, by simp [leftShiftI, hlen], ?_⟩
  intro v hvm
  exact hvb v (List.mem_reverse.mp (by simpa [leftShiftI] using hvm))

set_option maxRecDepth 4000 in
theorem lor_bit_facts :
    ∀ x < 256, ∀ v < 2, x % 2 = 0 → x ||| v = x + v := by decide

theorem shift_inject_correct (r : List Nat) (v : Nat) (hr : ValidBytes r)
    (hv : v ≤ 1) (hne : r ≠ [])
    (hbound : 2 * value r + v < 256 ^ r.length) :
    value (orLastByte (leftShiftI r 1) v) = 2 * value r + v
    ∧ (orLastByte (leftShiftI r 1) v).length = r.length
    ∧ ValidBytes (orLastByte (leftShiftI r 1) v) := by
  obtain ⟨hval, hlen, hvb⟩ := leftShiftI1_correct r hr (by omega)
  obtain ⟨x, xs, hxr⟩ : ∃ x xs, r.reverse = x :: xs := by
    cases hrr : r.reverse with
    | nil => exact absurd (by simpa using hrr) hne
    | cons x xs => exact ⟨x, xs, rfl⟩
  have hrev : (leftShiftI r 1).reverse = (leftShiftILS 1 r.reverse 0).1 := by
    simp [leftShiftI]
  have hLcons : (leftShiftILS 1 r.reverse 0).1
      = ((x <<< 1 + 0) &&& 0xff)
          :: (leftShiftILS 1 xs ((x <<< 1 + 0) >>> 8)).1 := by
    rw [hxr]
    rfl
  have hhead : (x <<< 1 + 0) &&& 0xff = 2 * x % 256 := by
    rw [and_255_eq_mod, Nat.shiftLeft_eq]
    norm_num
    try ring_nf
  have hheadeven : ((x <<< 1 + 0) &&& 0xff) % 2 = 0 := by
    rw [hhead]; omega
  have hheadlt : ((x <<< 1 + 0) &&& 0xff) < 256 := by
    rw [hhead]; omega
  have hor : orLastByte (leftShiftI r 1) v
      = ((((x <<< 1 + 0) &&& 0xff) ||| v)
          :: (leftShiftILS 1 xs ((x <<< 1 + 0) >>> 8)).1).reverse := by
    unfold orLastByte
    rw [hrev, hLcons]
  have hlor : (((x <<< 1 + 0) &&& 0xff) ||| v)
      = ((x <<< 1 + 0) &&& 0xff) + v :=
    lor_bit_facts _ hheadlt v (by omega) hheadeven
  have hvalue2 : value (leftShiftI r 1)
      = ((x <<< 1 + 0) &&& 0xff)
          + 256 * valueLS 256 (leftShiftILS 1 xs ((x <<< 1 + 0) >>> 8)).1 := by
    conv_lhs => rw [show leftShiftI r 1 = ((leftShiftILS 1 r.reverse 0).1).reverse from rfl]
    rw [value, List.reverse_reverse, hLcons, valueLS]
  refine ⟨?_, ?_, ?_⟩
  · rw [hor, value, List.reverse_reverse, valueLS, hlor]
    omega
  · rw [hor]
    have := hlen
    rw [show leftShiftI r 1 = ((leftShiftILS 1 r.reverse 0).1).reverse from rfl,
      List.length_reverse, hLcons] at this
    simp only [List.length_reverse, List.length_cons] at this ⊢
    omega
  · intro w hw
    rw [hor, List.mem_reverse] at hw
    rcases List.mem_cons.mp hw with h1 | h2
    · rw [h1, hlor]; omega
    · have : w ∈ leftShiftI r 1 := by
        rw [show leftShiftI r 1 = ((leftShiftILS 1 r.reverse 0).1).reverse from rfl,
          List.mem_reverse, hLcons]
        exact List.mem_cons_of_mem _ h2
      exact hvb w this

theorem getD_valueLS : ∀ (l : List Nat) (p : Nat), (∀ v ∈ l, v < 256) →
    l.getD p 0 = valueLS 256 l / 256 ^ p % 256 := by
  intro l
  induction l with
  | nil => intro p _; simp [valueLS]
  | cons x xs ih =>
      intro p h
      have hx : x < 256 := h x (by simp)
      cases p with
      | zero =>
          simp only [List.getD_cons_zero, pow_zero, Nat.div_one, valueLS]
          omega
      | succ p =>
          have hih := ih p (fun v hv => h v (by simp [hv]))
          simp only [List.getD_cons_succ, valueLS]
          rw [hih]
          have hps : (256 : Nat) ^ (p + 1) = 256 * 256 ^ p := by
            rw [pow_succ]; ring
          rw [hps, ← Nat.div_div_eq_div_mul]
          have h1 : (x + 256 * valueLS 256 xs) / 256 = valueLS 256 xs := by omega
          rw [h1]

set_option maxRecDepth 4000 in
theorem and_one_shift_facts :
    ∀ x < 256, ∀ j < 8, ((x &&& (1 <<< j) ≠ 0) ↔ x / 2 ^ j % 2 = 1) := by decide

theorem numBit_correct (a : List Nat) (i : Nat) (ha : ValidBytes a) :
    numBit a i = value a / 2 ^ i % 2 := by
  unfold numBit
  rw [getD_valueLS a.reverse (i / 8) (fun v hv => ha v (List.mem_reverse.mp hv))]
  have hb2 : valueLS 256 a.reverse = value a := rfl
  rw [hb2]
  have hBlt : value a / 256 ^ (i / 8) % 256 < 256 := Nat.mod_lt _ (by norm_num)
  have hj : i % 8 < 8 := Nat.mod_lt _ (by norm_num)
  have hiff := and_one_shift_facts _ hBlt (i % 8) hj
  have hpow : (256 : Nat) ^ (i / 8) = 2 ^ (8 * (i / 8)) := by
    rw [show (256 : Nat) = 2 ^ 8 by norm_num, ← pow_mul]
  have hkey : (value a / 256 ^ (i / 8) % 256) / 2 ^ (i % 8) % 2
      = value a / 2 ^ i % 2 := by
    rw [hpow]
    have hsplit : value a / 2 ^ (8 * (i / 8)) / 2 ^ (i % 8)
        = value a / 2 ^ i := by
      rw [Nat.div_div_eq_div_mul, ← pow_add, Nat.div_add_mod]
    set W := value a / 2 ^ (8 * (i / 8)) with hW
    have : W % 256 / 2 ^ (i % 8) % 2 = W / 2 ^ (i % 8) % 2 := by
      set j := i % 8 with hjj
      interval_cases j <;> omega
    rw [this, hsplit]
  by_cases hcond : value a / 256 ^ (i / 8) % 256 &&& (1 <<< (i % 8)) ≠ 0
  · rw [if_pos hcond, ← hkey, hiff.mp hcond]
  · rw [if_neg hcond, ← hkey]
    set t := (value a / 256 ^ (i / 8) % 256) / 2 ^ (i % 8) % 2 with hts
    have h2 : t < 2 := Nat.mod_lt _ (by norm_num)
    have h1 : ¬ t = 1 := fun hcc => hcond (hiff.mpr hcc)
    omega

set_option maxRecDepth 4000 in
theorem lor_pow_facts :
    ∀ x < 256, ∀ j < 8, x % 2 ^ (j + 1) = 0 →
      x ||| (1 <<< j) = x + (1 <<< j) ∧ x + (1 <<< j) < 256 := by decide

theorem setBitLS_correct : ∀ (l : List Nat) (i : Nat), (∀ v ∈ l, v < 256) →
    i < 8 * l.length → valueLS 256 l % 2 ^ (i + 1) = 0 →
    valueLS 256 (setBitLS l i) = valueLS 256 l + 2 ^ i
    ∧ (setBitLS l i).length = l.length
    ∧ (∀ v ∈ setBitLS l i, v < 256) := by
  intro l
  induction l with
  | nil => intro i _ h0 _; simp at h0
  | cons x xs ih =>
      intro i h hlt hmod
      have hx : x < 256 := h x (by simp)
      simp only [valueLS] at hmod
      by_cases hi : i < 8
      · have hdvd : (2 : Nat) ^ (i + 1) ∣ 256 := by
          rw [show (256 : Nat) = 2 ^ 8 by norm_num]
          exact pow_dvd_pow 2 (by omega)
        obtain ⟨k, hk⟩ := hdvd
        have hxmod : x % 2 ^ (i + 1) = 0 := by
          rw [hk, mul_assoc] at hmod
          rwa [Nat.add_mul_mod_self_left] at hmod
        obtain ⟨hlor, hbnd⟩ := lor_pow_facts x hx i hi hxmod
        have hset : setBitLS (x :: xs) i = (x ||| (1 <<< i)) :: xs := by
          simp [setBitLS, hi]
        have h2i : (1 : Nat) <<< i = 2 ^ i := by rw [Nat.shiftLeft_eq]; ring
        rw [hset]
        refine ⟨?_, by simp, ?_⟩
        · simp only [valueLS]
          rw [hlor, h2i]
          ring
        · intro v hv
          rcases List.mem_cons.mp hv with h1 | h2
          · rw [h1, hlor, h2i] at *
            omega
          · exact h v (by simp [h2])
      · push_neg at hi
        have hsplit : (2 : Nat) ^ (i + 1) = 256 * 2 ^ (i - 8 + 1) := by
          rw [show (256 : Nat) = 2 ^ 8 by norm_num, ← pow_add]
          congr 1
          omega
        rw [hsplit] at hmod
        obtain ⟨t, ht⟩ := Nat.dvd_of_mod_eq_zero hmod
        have ht2 : x + 256 * valueLS 256 xs = 256 * (2 ^ (i - 8 + 1) * t) := by
          rw [ht]; ring
        have hx0 : x = 0 := by omega
        have hV : valueLS 256 xs % 2 ^ (i - 8 + 1) = 0 := by
          rw [hx0] at ht2
          have hVeq : valueLS 256 xs = 2 ^ (i - 8 + 1) * t := by omega
          rw [hVeq]
          exact Nat.mul_mod_right _ _
        obtain ⟨h1, h2, h3⟩ := ih (i - 8) (fun v hv => h v (by simp [hv]))
          (by simp only [List.length_cons] at hlt; omega) hV
        have hset : setBitLS (x :: xs) i = x :: setBitLS xs (i - 8) := by
          simp [setBitLS, Nat.not_lt.mpr hi]
        rw [hset]
        have hpow : 256 * 2 ^ (i - 8) = 2 ^ i := by
          rw [show (256 : Nat) = 2 ^ 8 by norm_num, ← pow_add]
          congr 1
          omega
        refine ⟨?_, by simp [h2], ?_⟩
        · simp only [valueLS]
          rw [h1]
          omega
        · intro v hv
          rcases List.mem_cons.mp hv with hh | hh
          · rw [hh]; exact hx
          · exact h3 v hh

theorem setBit_correct (buf : List Nat) (i : Nat) (h : ValidBytes buf)
    (hlt : i < 8 * buf.length) (hmod : value buf % 2 ^ (i + 1) = 0) :
    value (setBit buf i) = value buf + 2 ^ i
    ∧ (setBit buf i).length = buf.length
    ∧ ValidBytes (setBit buf i) := by
  obtain ⟨h1, h2, h3⟩ := setBitLS_correct buf.reverse i
    (fun v hv => h v (List.mem_reverse.mp hv))
    (by simpa using hlt) hmod
  refine ⟨?_, ?_, ?_⟩
  · rw [setBit, value, List.reverse_reverse, h1]
    rfl
  · rw [setBit, List.length_reverse, h2, List.length_reverse]
  · intro v hv
    rw [setBit, List.mem_reverse] at hv
    exact h3 v hv

theorem gte_iff (a b : List Nat) (ha : ValidBytes a) (hb : ValidBytes b) :
    gte a b = true ↔ value b ≤ value a := by
  unfold gte
  rw [spaceShip_correct a b ha hb]
  split_ifs <;> simp_all <;> omega

theorem lt_iff (a b : List Nat) (ha : ValidBytes a) (hb : ValidBytes b) :
    lt a b = true ↔ value a < value b := by
  unfold lt
  rw [spaceShip_correct a b ha hb]
  split_ifs <;> simp_all <;> omega

theorem divmodLoop_invariant (a b : List Nat) (ha : ValidBytes a) (hb : ValidBytes b) :
    ∀ (k : Nat) (q r : List Nat), ValidBytes q → ValidBytes r →
      q.length = a.length → r.length = b.length + 1 →
      k ≤ 8 * a.length →
      value q % 2 ^ k = 0 →
      value r < value b →
      value q / 2 ^ k * value b + value r = value a / 2 ^ k →
      value (divmodLoop a b k q r).1 * value b + value (divmodLoop a b k q r).2
          = value a
      ∧ value (divmodLoop a b k q r).2 < value b := by
  intro k
  induction k with
  | zero =>
      intro q r _ _ _ _ _ _ hrb hinv
      simp only [divmodLoop]
      simp only [pow_zero, Nat.div_one] at hinv
      exact ⟨hinv, hrb⟩
  | succ k ih =>
      intro q r hq hr hql hrl hk hqmod hrb hinv
      simp only [divmodLoop]
      have hbval : value b < 256 ^ b.length := value_lt b hb
      have hbit : numBit a k = value a / 2 ^ k % 2 := numBit_correct a k ha
      have hbit1 : numBit a k ≤ 1 := by rw [hbit]; omega
      have hrne : r ≠ [] := by
        intro hcon; rw [hcon] at hrl; simp at hrl
      have hbound : 2 * value r + numBit a k < 256 ^ r.length := by
        have h3 : (2 : Nat) * 256 ^ b.length ≤ 256 ^ (b.length + 1) := by
          rw [pow_succ]
          calc (2 : Nat) * 256 ^ b.length = 256 ^ b.length * 2 := by ring
            _ ≤ 256 ^ b.length * 256 := Nat.mul_le_mul_left _ (by norm_num)
        rw [hrl]; omega
      obtain ⟨hr1v, hr1l, hr1b⟩ :=
        shift_inject_correct r (numBit a k) hr hbit1 hrne hbound
      set r1 := orLastByte (leftShiftI r 1) (numBit a k) with hr1def
      have hhalf : value a / 2 ^ k = 2 * (value a / 2 ^ (k + 1)) + numBit a k := by
        rw [hbit]
        have hdd : value a / 2 ^ (k + 1) = value a / 2 ^ k / 2 := by
          rw [pow_succ, ← Nat.div_div_eq_div_mul]
        rw [hdd]
        omega
      have hqdiv : value q / 2 ^ k = 2 * (value q / 2 ^ (k + 1)) := by
        obtain ⟨m, hm⟩ := Nat.dvd_of_mod_eq_zero hqmod
        have e1 : value q = 2 ^ k * (2 * m) := by rw [hm, pow_succ]; ring
        conv_lhs => rw [e1]
        conv_rhs => rw [hm]
        rw [Nat.mul_div_cancel_left _ (pow_pos (show (0:Nat) < 2 by norm_num) k),
          Nat.mul_div_cancel_left _ (pow_pos (show (0:Nat) < 2 by norm_num) (k + 1))]
      by_cases hge : gte r1 b = true
      · rw [if_pos hge]
        have hger : value b ≤ value r1 := (gte_iff r1 b hr1b hb).mp hge
        have hqlt : k < 8 * q.length := by rw [hql]; omega
        obtain ⟨hq1v, hq1l, hq1b⟩ := setBit_correct q k hq hqlt hqmod
        obtain ⟨hsv, hsl, hsb, _⟩ := subICore_correct r1 b hr1b hb hger
          (by rw [hr1l, hrl]; omega)
        apply ih (setBit q k) (subICore r1 b) hq1b hsb
          (by rw [hq1l, hql]) (by rw [hsl, hr1l, hrl]) (by omega)
        · rw [hq1v]
          obtain ⟨m, hm⟩ := Nat.dvd_of_mod_eq_zero hqmod
          rw [hm, pow_succ]
          have e4 : 2 ^ k * 2 * m + 2 ^ k = 2 ^ k * (2 * m + 1) := by ring
          rw [e4, Nat.mul_mod_right]
        · have hr1max : value r1 ≤ 2 * value r + 1 := by rw [hr1v]; omega
          omega
        · have e1 : value (setBit q k) / 2 ^ k = 2 * (value q / 2 ^ (k + 1)) + 1 := by
            rw [hq1v, Nat.add_div_right _ (pow_pos (show (0:Nat) < 2 by norm_num) k),
              hqdiv]
          rw [e1]
          have e2 : value (subICore r1 b) = 2 * value r + numBit a k - value b := by
            omega
          rw [e2, hhalf]
          have e3 : (2 * (value q / 2 ^ (k + 1)) + 1) * value b
              = 2 * (value q / 2 ^ (k + 1) * value b) + value b := by ring
          rw [e3]
          omega
      · rw [if_neg hge]
        have hlt2 : value r1 < value b := by
          have hgi := gte_iff r1 b hr1b hb
          by_contra hcon
          exact hge (hgi.mpr (by omega))
        apply ih q r1 hq hr1b hql (by rw [hr1l, hrl]) (by omega)
        · obtain ⟨m, hm⟩ := Nat.dvd_of_mod_eq_zero hqmod
          rw [hm, pow_succ]
          have e4 : 2 ^ k * 2 * m = 2 ^ k * (2 * m) := by ring
          rw [e4, Nat.mul_mod_right]
        · exact hlt2
        · rw [hr1v, hhalf, hqdiv]
          have e3 : 2 * (value q / 2 ^ (k + 1)) * value b
              = 2 * (value q / 2 ^ (k + 1) * value b) := by ring
          rw [e3]
          omega

/-- Claim C2: for a non-zero denominator, divmod returns {div, mod}
with value(div)*value(b) + value(mod) = value(a) and
0 <= value(mod) < value(b); in particular for a = hex 00000101ffff and
b = hex ff0fff it returns div of value 1 and mod of value 192512. -/
theorem C2_divmod_euclidean (a b : List Nat) (ha : ValidBytes a) (hb : ValidBytes b)
    (hbpos : 0 < value b) :
    (∃ d m, divmod a b = .ok (d, m)
      ∧ value d * value b + value m = value a
      ∧ value m < value b)
    ∧ (divmod [0x00, 0x00, 0x01, 0x01, 0xff, 0xff] [0xff, 0x0f, 0xff]
        = .ok ([0x00, 0x00, 0x00, 0x00, 0x00, 0x01], [0x00, 0x02, 0xf0, 0x00])
      ∧ value [0x00, 0x00, 0x00, 0x00, 0x00, 0x01] = 1
      ∧ value [0x00, 0x02, 0xf0, 0x00] = 192512) := by
  refine ⟨?_, by decide⟩
  unfold divmod
  have hbz : ¬ bitLength b = 0 := by
    rw [bitLength_eq_zero_iff b hb]; omega
  rw [if_neg hbz]
  by_cases hlt : lt a b = true
  · rw [if_pos hlt]
    refine ⟨[], a, rfl, ?_, (lt_iff a b ha hb).mp hlt⟩
    simp [value_nil]
  · rw [if_neg hlt]
    have hge : value b ≤ value a := by
      have hli := lt_iff a b ha hb
      by_contra hcon
      exact hlt (hli.mpr (by omega))
    have hq0 : ValidBytes (List.replicate a.length 0) := fun v hv => by
      rw [List.eq_of_mem_replicate hv]; norm_num
    have hr0 : ValidBytes (List.replicate (b.length + 1) 0) := fun v hv => by
      rw [List.eq_of_mem_replicate hv]; norm_num
    have h1 := divmodLoop_invariant a b ha hb (bitLength a)
      (List.replicate a.length 0) (List.replicate (b.length + 1) 0)
      hq0 hr0 (by simp) (by simp)
      (bitLength_le a)
      (by rw [value_replicate_zero]; simp)
      (by rw [value_replicate_zero]; omega)
      (by
        rw [value_replicate_zero, value_replicate_zero]
        have hlt2 := value_lt_two_pow_bitLength a ha
        rw [Nat.div_eq_of_lt hlt2]
        simp)
    exact ⟨_, _, rfl, h1.1, h1.2⟩

theorem C2_divmod_euclidean_witness :
    ValidBytes [0x00, 0x00, 0x01, 0x01, 0xff, 0xff]
    ∧ ValidBytes [0xff, 0x0f, 0xff]
    ∧ 0 < value [0xff, 0x0f, 0xff]
    ∧ (∃ d m, divmod [0x00, 0x00, 0x01, 0x01, 0xff, 0xff] [0xff, 0x0f, 0xff]
          = .ok (d, m)
        ∧ value d * value [0xff, 0x0f, 0xff] + value m
            = value [0x00, 0x00, 0x01, 0x01, 0xff, 0xff]
        ∧ value m < value [0xff, 0x0f, 0xff]) :=
  ⟨by decide, by decide, by decide,
    (C2_divmod_euclidean [0x00, 0x00, 0x01, 0x01, 0xff, 0xff] [0xff, 0x0f, 0xff]
      (by decide) (by decide) (by decide)).1⟩

/-- Claim C7: divmod raises DivisionByZero exactly when the
denominator's bit length is 0 (equivalently, for a well-formed buffer,
when its value is 0 — empty or all-zero); when instead the numerator is
smaller than the denominator it returns an empty quotient and a copy of
the numerator's bytes. -/
theorem C7_divmod_zero_and_small (a b : List Nat)
    (ha : ValidBytes a) (hb : ValidBytes b) :
    ((∃ e, divmod a b = .error e) ↔ bitLength b = 0)
    ∧ (bitLength b = 0 ↔ value b = 0)
    ∧ (bitLength b ≠ 0 → value a < value b → divmod a b = .ok ([], a)) := by
  refine ⟨?_, bitLength_eq_zero_iff b hb, ?_⟩
  · constructor
    · intro ⟨e, he⟩
      by_contra hcon
      unfold divmod at he
      rw [if_neg hcon] at he
      split at he <;> exact Except.noConfusion he
    · intro h
      exact ⟨"DivisionByZeroError", by unfold divmod; rw [if_pos h]⟩
  · intro hbz hab
    unfold divmod
    rw [if_neg hbz, if_pos ((lt_iff a b ha hb).mpr hab)]

theorem C7_divmod_zero_and_small_witness :
    ValidBytes [0xff, 0x0f, 0xff]
    ∧ ValidBytes ([] : List Nat)
    ∧ ((∃ e, divmod [0xff, 0x0f, 0xff] ([] : List Nat) = .error e)
        ↔ bitLength ([] : List Nat) = 0) :=
  ⟨by decide, by decide,
    (C7_divmod_zero_and_small [0xff, 0x0f, 0xff] [] (by decide) (by decide)).1⟩

theorem valueLS_replicate_zero (n : Nat) : valueLS 256 (List.replicate n 0) = 0 := by
  induction n with
  | zero => rfl
  | succ k ih => simp [List.replicate_succ, valueLS, ih]

theorem bytesToLanesLS_value : ∀ l : List Nat,
    valueLS 65536 (bytesToLanesLS l) = valueLS 256 l
  | [] => rfl
  | [lo] => by simp [bytesToLanesLS, valueLS]
  | lo :: hi :: rest => by
      have ih := bytesToLanesLS_value rest
      simp only [bytesToLanesLS, valueLS, ih]
      ring

theorem bytesToLanesLS_valid : ∀ l : List Nat, (∀ v ∈ l, v < 256) →
    ∀ w ∈ bytesToLanesLS l, w < 65536
  | [], _ => by simp [bytesToLanesLS]
  | [lo], h => by
      simp only [bytesToLanesLS, List.mem_singleton]
      intro w hw
      have := h lo (by simp)
      omega
  | lo :: hi :: rest, h => by
      intro w hw
      simp only [bytesToLanesLS, List.mem_cons] at hw
      rcases hw with h1 | h2
      · have hlo := h lo (by simp)
        have hhi := h hi (by simp)
        omega
      · exact bytesToLanesLS_valid rest (fun v hv => h v (by simp [hv])) w h2

theorem bytesToLanesLS_length : ∀ l : List Nat,
    (bytesToLanesLS l).length = (l.length + 1) / 2
  | [] => rfl
  | [lo] => by simp [bytesToLanesLS]
  | lo :: hi :: rest => by
      simp only [bytesToLanesLS, List.length_cons, bytesToLanesLS_length rest]
      omega

theorem lanesToBytesLS_value : ∀ L : List Nat, (∀ w ∈ L, w < 65536) →
    valueLS 256 (lanesToBytesLS L) = valueLS 65536 L
  | [], _ => rfl
  | lane :: rest, h => by
      have ih := lanesToBytesLS_value rest (fun v hv => h v (by simp [hv]))
      have hl := h lane (by simp)
      simp only [lanesToBytesLS, valueLS, ih]
      omega

theorem lanesToBytesLS_valid : ∀ L : List Nat, (∀ w ∈ L, w < 65536) →
    ∀ v ∈ lanesToBytesLS L, v < 256
  | [], _ => by simp [lanesToBytesLS]
  | lane :: rest, h => by
      intro v hv
      simp only [lanesToBytesLS, List.mem_cons] at hv
      have hl := h lane (by simp)
      rcases hv with h1 | h2 | h3
      · omega
      · omega
      · exact lanesToBytesLS_valid rest (fun w hw => h w (by simp [hw])) v h3

theorem convFrom_nil (bL : List Nat) (r : Nat) : ∀ i, convFrom [] bL r i = 0 := by
  intro i
  induction i with
  | zero => rfl
  | succ i ih =>
      simp only [convFrom, ih]
      split
      · simp [laneGet]
      · rfl

theorem convFrom_ext (aL bL : List Nat) (r : Nat) :
    ∀ i, aL.length ≤ i → convFrom aL bL r (i + 1) = convFrom aL bL r i := by
  intro i hi
  simp only [convFrom]
  have hz : laneGet aL (i + 1) = 0 := by
    simp only [laneGet, Nat.add_sub_cancel]
    exact List.getD_eq_default _ _ hi
  rw [hz]
  simp

theorem convFrom_min (aL bL : List Nat) (r : Nat) :
    ∀ i, aL.length ≤ i → convFrom aL bL r i = convFrom aL bL r aL.length := by
  intro i
  induction i with
  | zero =>
      intro hi
      have : aL.length = 0 := by omega
      rw [this]
  | succ i ih =>
      intro hi
      by_cases h : aL.length ≤ i
      · rw [convFrom_ext aL bL r i h, ih h]
      · have he : aL.length = i + 1 := by omega
        rw [he]

theorem convFrom_zero_of_big (aL bL : List Nat) (r : Nat) :
    ∀ i, bL.length < r - i → convFrom aL bL r (i + 1) = 0 := by
  intro i
  induction i with
  | zero =>
      intro h
      simp only [convFrom]
      rw [if_neg (by omega)]
  | succ i ih =>
      intro h
      simp only [convFrom]
      rw [if_neg (by omega)]
      have := ih (by omega)
      simp only [convFrom] at this
      omega

theorem mulInner_correct (aL bL : List Nat) (r : Nat) :
    ∀ i sc, i ≤ r → sc.1 < 65536 →
    (mulInner aL bL r i sc).1 + 65536 * (mulInner aL bL r i sc).2
      = sc.1 + 65536 * sc.2 + convFrom aL bL r i
    ∧ (mulInner aL bL r i sc).1 < 65536 := by
  intro i
  induction i with
  | zero =>
      intro sc _ hs
      exact ⟨by simp [mulInner, convFrom], hs⟩
  | succ i ih =>
      intro sc hir hs
      by_cases hg : r + 1 - (i + 1) ≤ bL.length
      · have hj : 1 ≤ r + 1 - (i + 1) := by omega
        have hunfold : mulInner aL bL r (i + 1) sc
            = mulInner aL bL r i
              ((laneGet aL (i + 1) * laneGet bL (r + 1 - (i + 1)) + sc.1) &&& 0xffff,
               sc.2 + ((laneGet aL (i + 1) * laneGet bL (r + 1 - (i + 1)) + sc.1) >>> 16)) := by
          simp only [mulInner, if_pos hg]
        rw [hunfold]
        set tmp := laneGet aL (i + 1) * laneGet bL (r + 1 - (i + 1)) + sc.1 with htmp
        have hand : tmp &&& 0xffff = tmp % 65536 := by
          have h16 := Nat.and_pow_two_sub_one_eq_mod tmp 16
          norm_num at h16 ⊢
          exact h16
        have hshr : tmp >>> 16 = tmp / 65536 := by
          have h16 := Nat.shiftRight_eq_div_pow tmp 16
          norm_num at h16 ⊢
          exact h16
        obtain ⟨h1, h2⟩ := ih (tmp &&& 0xffff, sc.2 + (tmp >>> 16)) (by omega)
          (by rw [hand]; omega)
        refine ⟨?_, h2⟩
        rw [h1]
        have hconv : convFrom aL bL r (i + 1)
            = laneGet aL (i + 1) * laneGet bL (r + 1 - (i + 1))
              + convFrom aL bL r i := by
          simp only [convFrom]
          rw [if_pos ⟨hj, hg⟩]
        rw [hconv]
        simp only [hand, hshr]
        omega
      · have hunfold : mulInner aL bL r (i + 1) sc = sc := by
          simp only [mulInner, if_neg hg]
        rw [hunfold]
        have hz : convFrom aL bL r (i + 1) = 0 :=
          convFrom_zero_of_big aL bL r i (by omega)
        exact ⟨by rw [hz]; omega, hs⟩

theorem convFrom_cons (a : Nat) (as bL : List Nat) (r : Nat) :
    ∀ i, convFrom (a :: as) bL r (i + 1)
      = (if 1 ≤ r ∧ r ≤ bL.length then a * laneGet bL r else 0)
        + convFrom as bL (r - 1) i := by
  intro i
  induction i with
  | zero =>
      have h11 : r + 1 - 1 = r := by omega
      simp only [convFrom, h11]
      have hg : laneGet (a :: as) 1 = a := by
        simp [laneGet]
      rw [hg]
  | succ i ih =>
      have he : r + 1 - (i + 2) = (r - 1) + 1 - (i + 1) := by omega
      have hl : laneGet (a :: as) (i + 2) = laneGet as (i + 1) := by
        simp [laneGet]
      calc convFrom (a :: as) bL r (i + 2)
          = (if 1 ≤ r + 1 - (i + 2) ∧ r + 1 - (i + 2) ≤ bL.length then
              laneGet (a :: as) (i + 2) * laneGet bL (r + 1 - (i + 2)) else 0)
            + convFrom (a :: as) bL r (i + 1) := rfl
        _ = (if 1 ≤ (r - 1) + 1 - (i + 1) ∧ (r - 1) + 1 - (i + 1) ≤ bL.length then
              laneGet as (i + 1) * laneGet bL ((r - 1) + 1 - (i + 1)) else 0)
            + ((if 1 ≤ r ∧ r ≤ bL.length then a * laneGet bL r else 0)
              + convFrom as bL (r - 1) i) := by rw [he, hl, ih]
        _ = (if 1 ≤ r ∧ r ≤ bL.length then a * laneGet bL r else 0)
            + convFrom as bL (r - 1) (i + 1) := by
              simp only [convFrom]
              ring

theorem convAt_cons (a : Nat) (as bL : List Nat) (r : Nat) (hr : 1 ≤ r) :
    convAt (a :: as) bL r
      = (if r ≤ bL.length then a * laneGet bL r else 0) + convAt as bL (r - 1) := by
  unfold convAt
  have h1 : convFrom (a :: as) bL r r = convFrom (a :: as) bL r ((r - 1) + 1) := by
    rw [Nat.sub_add_cancel hr]
  rw [h1, convFrom_cons a as bL r (r - 1)]
  have hif : (if 1 ≤ r ∧ r ≤ bL.length then a * laneGet bL r else 0)
      = (if r ≤ bL.length then a * laneGet bL r else 0) := by
    by_cases hc : r ≤ bL.length
    · rw [if_pos ⟨hr, hc⟩, if_pos hc]
    · rw [if_neg (by tauto), if_neg hc]
  rw [hif]

theorem convAt_zero_rank (aL bL : List Nat) : convAt aL bL 0 = 0 := rfl

theorem tailConv_nil (bL : List Nat) : ∀ f r, tailConv [] bL r f = 0 := by
  intro f
  induction f with
  | zero => intro r; rfl
  | succ f ih =>
      intro r
      simp only [tailConv, ih]
      simp [convAt, convFrom_nil]

theorem laneSum_nil : ∀ f r, laneSum [] r f = 0 := by
  intro f
  induction f with
  | zero => intro r; rfl
  | succ f ih =>
      intro r
      simp only [laneSum, ih]
      split
      · next h => simp only [List.length_nil] at h; omega
      · rfl

theorem laneSum_shift (x : Nat) (xs : List Nat) :
    ∀ f r, laneSum (x :: xs) (r + 2) f = laneSum xs (r + 1) f := by
  intro f
  induction f with
  | zero => intro r; rfl
  | succ f ih =>
      intro r
      simp only [laneSum]
      rw [ih (r + 1)]
      have hl : laneGet (x :: xs) (r + 2) = laneGet xs (r + 1) := by
        simp [laneGet]
      have hg : (if 1 ≤ r + 2 ∧ r + 2 ≤ (x :: xs).length then laneGet (x :: xs) (r + 2) else 0)
          = (if 1 ≤ r + 1 ∧ r + 1 ≤ xs.length then laneGet xs (r + 1) else 0) := by
        simp only [List.length_cons]
        by_cases hc : r + 1 ≤ xs.length
        · rw [if_pos ⟨by omega, by omega⟩, if_pos ⟨by omega, hc⟩, hl]
        · rw [if_neg (by omega), if_neg (by tauto)]
      rw [hg]

theorem laneSum_full : ∀ (bL : List Nat) (f : Nat), bL.length ≤ f →
    laneSum bL 1 f = valueLS 65536 bL := by
  intro bL
  induction bL with
  | nil => intro f _; rw [laneSum_nil]; rfl
  | cons x xs ih =>
      intro f hf
      cases f with
      | zero => simp at hf
      | succ f =>
          simp only [laneSum]
          rw [if_pos ⟨le_refl 1, by simp⟩]
          have hshift := laneSum_shift x xs f 0
          norm_num at hshift
          rw [hshift, ih f (by simpa using hf)]
          simp [laneGet, valueLS]

theorem tailConv_cons (a : Nat) (as bL : List Nat) :
    ∀ f r, 1 ≤ r →
    tailConv (a :: as) bL r f = a * laneSum bL r f + tailConv as bL (r - 1) f := by
  intro f
  induction f with
  | zero => intro r _; simp [tailConv, laneSum]
  | succ f ih =>
      intro r hr
      have hr1 : (r - 1) + 1 = r := by omega
      have hrp : r + 1 - 1 = r := by omega
      simp only [tailConv, laneSum]
      rw [convAt_cons a as bL r hr, ih (r + 1) (by omega), hrp]
      have hif : (if r ≤ bL.length then a * laneGet bL r else 0)
          = a * (if 1 ≤ r ∧ r ≤ bL.length then laneGet bL r else 0) := by
        by_cases hc : r ≤ bL.length
        · rw [if_pos hc, if_pos ⟨hr, hc⟩]
        · rw [if_neg hc, if_neg (by tauto), Nat.mul_zero]
      rw [hif]
      have hz : tailConv as bL (r - 1 + 1) f = tailConv as bL r f := by rw [hr1]
      rw [hz]
      ring

theorem tailConv_zero_rank (X bL : List Nat) (f : Nat) :
    tailConv X bL 0 (f + 1) = 65536 * tailConv X bL 1 f := by
  simp only [tailConv, convAt_zero_rank, Nat.zero_add]

theorem tailConv_full : ∀ (aL bL : List Nat) (f : Nat), aL.length + bL.length ≤ f →
    tailConv aL bL 1 f = valueLS 65536 aL * valueLS 65536 bL := by
  intro aL
  induction aL with
  | nil =>
      intro bL f _
      rw [tailConv_nil]
      simp [valueLS]
  | cons a as ih =>
      intro bL f hf
      rw [tailConv_cons a as bL f 1 (le_refl 1)]
      simp only [Nat.sub_self]
      cases f with
      | zero => simp at hf
      | succ f =>
          rw [tailConv_zero_rank, laneSum_full bL (f + 1) (by simp at hf; omega),
            ih bL f (by simp at hf; omega)]
          simp only [valueLS]
          ring

theorem convAt_big_zero (aL bL : List Nat) (r : Nat)
    (hr : aL.length + bL.length ≤ r) : convAt aL bL r = 0 := by
  unfold convAt
  suffices h : ∀ i, i ≤ r → convFrom aL bL r i = 0 from h r (le_refl r)
  intro i
  induction i with
  | zero => intro _; rfl
  | succ i ih =>
      intro hir
      simp only [convFrom]
      rw [ih (by omega)]
      by_cases haL : aL.length ≤ i
      · have hz : laneGet aL (i + 1) = 0 := by
          simp only [laneGet, Nat.add_sub_cancel]
          exact List.getD_eq_default _ _ haL
        rw [hz]
        split <;> simp
      · rw [if_neg (by omega)]

theorem tailConv_snoc (aL bL : List Nat) :
    ∀ (f r : Nat), tailConv aL bL r (f + 1)
      = tailConv aL bL r f + 65536 ^ f * convAt aL bL (r + f) := by
  intro f
  induction f with
  | zero =>
      intro r
      simp [tailConv]
  | succ f ih =>
      intro r
      have h1 : tailConv aL bL r (f + 1 + 1)
          = convAt aL bL r + 65536 * tailConv aL bL (r + 1) (f + 1) := rfl
      rw [h1, ih (r + 1)]
      have h2 : tailConv aL bL r (f + 1)
          = convAt aL bL r + 65536 * tailConv aL bL (r + 1) f := rfl
      rw [h2]
      have h3 : r + 1 + f = r + (f + 1) := by omega
      rw [h3, pow_succ]
      ring

theorem tailConv_stable (aL bL : List Nat) :
    ∀ k, tailConv aL bL 1 (aL.length + bL.length - 1 + k)
      = tailConv aL bL 1 (aL.length + bL.length - 1) := by
  intro k
  induction k with
  | zero => rfl
  | succ k ih =>
      have he : aL.length + bL.length - 1 + (k + 1)
          = (aL.length + bL.length - 1 + k) + 1 := by omega
      rw [he, tailConv_snoc aL bL (aL.length + bL.length - 1 + k) 1,
        convAt_big_zero aL bL _ (by omega), ih]
      simp

theorem tailConv_ge (aL bL : List Nat) (f : Nat)
    (hf : aL.length + bL.length - 1 ≤ f) :
    tailConv aL bL 1 f = valueLS 65536 aL * valueLS 65536 bL := by
  obtain ⟨k, hk⟩ := Nat.exists_eq_add_of_le hf
  rw [hk, tailConv_stable]
  have h2 : tailConv aL bL 1 (aL.length + bL.length - 1)
      = tailConv aL bL 1 (aL.length + bL.length) := by
    by_cases hz : aL.length + bL.length = 0
    · rw [hz]
    · have he : aL.length + bL.length = (aL.length + bL.length - 1) + 1 := by omega
      conv_rhs => rw [he]
      rw [tailConv_snoc aL bL (aL.length + bL.length - 1) 1,
        convAt_big_zero aL bL _ (by omega)]
      simp
  rw [h2, tailConv_full aL bL _ (le_refl _)]

theorem mulLanes_correct (aL bL : List Nat) :
    ∀ (rem r carry : Nat), 1 ≤ r →
    carry < maxSafeInteger →
    carry + tailConv aL bL r rem ≤ maxSafeInteger →
    carry + tailConv aL bL r rem < 65536 ^ rem →
    ∃ out, mulLanes aL bL carry r rem = .ok out
      ∧ valueLS 65536 out = carry + tailConv aL bL r rem
      ∧ out.length = rem ∧ (∀ v ∈ out, v < 65536) := by
  intro rem
  induction rem with
  | zero =>
      intro r carry _ _ _ hlt
      refine ⟨[], rfl, ?_, rfl, by simp⟩
      simp only [tailConv, pow_zero] at hlt ⊢
      simp only [valueLS]
      omega
  | succ rem ih =>
      intro r carry hr hcms hcsafe hcbound
      simp only [mulLanes]
      rw [if_neg (by omega)]
      obtain ⟨hsum, hslt⟩ := mulInner_correct aL bL r (min aL.length r)
        (carry % 0x10000, carry / 0x10000) (Nat.min_le_right _ _)
        (by simp only []; omega)
      have hminc : convFrom aL bL r (min aL.length r) = convAt aL bL r := by
        unfold convAt
        by_cases hmr : aL.length ≤ r
        · rw [Nat.min_eq_left hmr]
          exact (convFrom_min aL bL r r hmr).symm
        · rw [Nat.min_eq_right (by omega)]
      rw [hminc] at hsum
      set sc := mulInner aL bL r (min aL.length r) (carry % 0x10000, carry / 0x10000)
        with hscdef
      have hstep : sc.1 + 65536 * sc.2 = carry + convAt aL bL r := by
        simp only [] at hsum
        omega
      have htail : tailConv aL bL r (rem + 1)
          = convAt aL bL r + 65536 * tailConv aL bL (r + 1) rem := rfl
      rw [htail] at hcsafe hcbound
      rw [show (65536 : Nat) ^ (rem + 1) = 65536 * 65536 ^ rem from by
        rw [pow_succ]; ring] at hcbound
      have hw1 : sc.2 < maxSafeInteger := by
        unfold maxSafeInteger at hcms hcsafe ⊢
        omega
      have hw2 : sc.2 + tailConv aL bL (r + 1) rem ≤ maxSafeInteger := by
        unfold maxSafeInteger at hcms hcsafe ⊢
        omega
      have hw3 : sc.2 + tailConv aL bL (r + 1) rem < 65536 ^ rem := by omega
      obtain ⟨out, hok, hov, holen, hovalid⟩ := ih (r + 1) sc.2 (by omega) hw1 hw2 hw3
      refine ⟨sc.1 :: out, ?_, ?_, by simp [holen], ?_⟩
      · rw [hok]; rfl
      · rw [htail]
        simp only [valueLS]
        rw [hov]
        omega
      · intro v hv
        rcases List.mem_cons.mp hv with h1 | h2
        · rw [h1]; exact hslt
        · exact hovalid v h2

theorem value_padToNBytes (a : List Nat) (n : Nat) :
    value (padToNBytes a n) = value a := by
  unfold padToNBytes
  exact value_zero_append _ _

theorem padToNBytes_length (a : List Nat) (n : Nat) :
    (padToNBytes a n).length = (n - a.length % n) % n + a.length := by
  simp [padToNBytes]

/-- Claim C1: for operands whose product stays within the safe integer
range, mul succeeds (the defensive carry guard never fires) and returns
a buffer whose value is the product; in particular multiplying the
buffers of hex 00000101ffff and ff0fff yields decimal 282635121127425. -/
theorem C1_mul_value (a b : List Nat) (ha : ValidBytes a) (hb : ValidBytes b)
    (hsafe : value a * value b ≤ maxSafeInteger) :
    (∃ r, mul a b = .ok r ∧ value r = value a * value b)
    ∧ (mul [0x00, 0x00, 0x01, 0x01, 0xff, 0xff] [0xff, 0x0f, 0xff]
        = .ok [0x00, 0x00, 0x00, 0x01, 0x01, 0x0e, 0x1d, 0xfe, 0xf0, 0x01]
      ∧ value [0x00, 0x00, 0x00, 0x01, 0x01, 0x0e, 0x1d, 0xfe, 0xf0, 0x01]
          = 282635121127425) := by
  refine ⟨?_, by decide⟩
  set aL := bytesToLanesLS (padToNBytes a 2).reverse with haL
  set bL := bytesToLanesLS (padToNBytes b 2).reverse with hbL
  have hAv : valueLS 65536 aL = value a := by
    rw [haL, bytesToLanesLS_value]
    exact value_padToNBytes a 2
  have hBv : valueLS 65536 bL = value b := by
    rw [hbL, bytesToLanesLS_value]
    exact value_padToNBytes b 2
  have hal : aL.length = ((padToNBytes a 2).length + 1) / 2 := by
    rw [haL, bytesToLanesLS_length, List.length_reverse]
  have hbl : bL.length = ((padToNBytes b 2).length + 1) / 2 := by
    rw [hbL, bytesToLanesLS_length, List.length_reverse]
  set total := (padToNBytes (List.replicate (a.length + b.length) 0) 2).length / 2
    with htot
  have htotlen : (padToNBytes (List.replicate (a.length + b.length) 0) 2).length
      = (2 - (a.length + b.length) % 2) % 2 + (a.length + b.length) := by
    rw [padToNBytes_length, List.length_replicate]
  have hmn : aL.length + bL.length - 1 ≤ total ∧ a.length + b.length ≤ 2 * total := by
    rw [hal, hbl, htot, htotlen, padToNBytes_length, padToNBytes_length]
    omega
  have hAlt : value a < 256 ^ a.length := value_lt a ha
  have hBlt : value b < 256 ^ b.length := value_lt b hb
  have hprod : value a * value b < 65536 ^ total := by
    calc value a * value b
        < 256 ^ a.length * 256 ^ b.length :=
          mul_lt_mul'' hAlt hBlt (Nat.zero_le _) (Nat.zero_le _)
      _ = 2 ^ (8 * (a.length + b.length)) := by
          rw [show (256 : Nat) = 2 ^ 8 by norm_num, ← pow_mul, ← pow_mul, ← pow_add]
          ring_nf
      _ ≤ 2 ^ (16 * total) := Nat.pow_le_pow_right (by norm_num) (by omega)
      _ = 65536 ^ total := by
          rw [show (65536 : Nat) = 2 ^ 16 by norm_num, ← pow_mul]
  have htc : tailConv aL bL 1 total = value a * value b := by
    rw [tailConv_ge aL bL total hmn.1, hAv, hBv]
  obtain ⟨out, hok, hov, holen, hovalid⟩ := mulLanes_correct aL bL total 1 0 (le_refl 1)
    (by unfold maxSafeInteger; norm_num)
    (by simpa [htc] using hsafe)
    (by simpa [htc] using hprod)
  refine ⟨(lanesToBytesLS out).reverse, ?_, ?_⟩
  · unfold mul
    dsimp only
    rw [← haL, ← hbL, ← htot, hok]
    rfl
  · rw [show value ((lanesToBytesLS out).reverse) = valueLS 256 (lanesToBytesLS out)
      from by simp [value]]
    rw [lanesToBytesLS_value out hovalid, hov, htc]
    simp

theorem C1_mul_value_witness :
    ValidBytes [0x00, 0x00, 0x01, 0x01, 0xff, 0xff]
    ∧ ValidBytes [0xff, 0x0f, 0xff]
    ∧ value [0x00, 0x00, 0x01, 0x01, 0xff, 0xff] * value [0xff, 0x0f, 0xff]
        ≤ maxSafeInteger
    ∧ (∃ r, mul [0x00, 0x00, 0x01, 0x01, 0xff, 0xff] [0xff, 0x0f, 0xff] = .ok r
        ∧ value r = value [0x00, 0x00, 0x01, 0x01, 0xff, 0xff] * value [0xff, 0x0f, 0xff]) :=
  ⟨by decide, by decide, by decide,
    (C1_mul_value [0x00, 0x00, 0x01, 0x01, 0xff, 0xff] [0xff, 0x0f, 0xff]
      (by decide) (by decide) (by decide)).1⟩

theorem utf8DecodeFuel_cons (fuel b : Nat) (rest : List Nat) :
    utf8DecodeFuel (fuel + 1) (b :: rest) =
      if b < 0x80 then (utf8DecodeFuel fuel rest).map (fun cs => Char.ofNat b :: cs)
      else if b < 0xC0 then .error "FormatError"
      else if b < 0xE0 then
        match rest with
        | b2 :: rest2 =>
            if 0x80 ≤ b2 ∧ b2 < 0xC0 then
              if 0x80 ≤ (b - 0xC0) * 64 + (b2 - 0x80) then
                (utf8DecodeFuel fuel rest2).map
                  (fun cs => Char.ofNat ((b - 0xC0) * 64 + (b2 - 0x80)) :: cs)
              else .error "FormatError"
            else .error "FormatError"
        | _ => .error "FormatError"
      else if b < 0xF0 then
        match rest with
        | b2 :: b3 :: rest2 =>
            if (0x80 ≤ b2 ∧ b2 < 0xC0) ∧ (0x80 ≤ b3 ∧ b3 < 0xC0) then
              if 0x800 ≤ (b - 0xE0) * 4096 + (b2 - 0x80) * 64 + (b3 - 0x80)
                  ∧ ¬(0xD800 ≤ (b - 0xE0) * 4096 + (b2 - 0x80) * 64 + (b3 - 0x80)
                      ∧ (b - 0xE0) * 4096 + (b2 - 0x80) * 64 + (b3 - 0x80) ≤ 0xDFFF) then
                (utf8DecodeFuel fuel rest2).map
                  (fun cs =>
                    Char.ofNat ((b - 0xE0) * 4096 + (b2 - 0x80) * 64 + (b3 - 0x80)) :: cs)
              else .error "FormatError"
            else .error "FormatError"
        | _ => .error "FormatError"
      else if b < 0xF8 then
        match rest with
        | b2 :: b3 :: b4 :: rest2 =>
            if (0x80 ≤ b2 ∧ b2 < 0xC0) ∧ (0x80 ≤ b3 ∧ b3 < 0xC0)
                ∧ (0x80 ≤ b4 ∧ b4 < 0xC0) then
              if 0x10000 ≤ (b - 0xF0) * 262144 + (b2 - 0x80) * 4096
                    + (b3 - 0x80) * 64 + (b4 - 0x80)
                  ∧ (b - 0xF0) * 262144 + (b2 - 0x80) * 4096
                    + (b3 - 0x80) * 64 + (b4 - 0x80) < 0x110000 then
                (utf8DecodeFuel fuel rest2).map
                  (fun cs =>
                    Char.ofNat ((b - 0xF0) * 262144 + (b2 - 0x80) * 4096
                      + (b3 - 0x80) * 64 + (b4 - 0x80)) :: cs)
              else .error "FormatError"
            else .error "FormatError"
        | _ => .error "FormatError"
      else .error "FormatError" := rfl

theorem utf8EncodeChar_roundtrip (fuel : Nat) (c : Char) (tail : List Nat) :
    utf8DecodeFuel (fuel + 1) (utf8EncodeChar c ++ tail)
      = (utf8DecodeFuel fuel tail).map (fun cs => c :: cs) := by
  have hvalid : c.toNat < 0xd800 ∨ (0xdfff < c.toNat ∧ c.toNat < 0x110000) := by
    have h := c.valid
    unfold UInt32.isValidChar Nat.isValidChar at h
    simpa [Char.toNat] using h
  have hofnat : Char.ofNat c.toNat = c := Char.ofNat_toNat c
  set n := c.toNat with hn
  by_cases h1 : n < 0x80
  · have henc : utf8EncodeChar c = [n] := by
      unfold utf8EncodeChar
      rw [← hn, if_pos h1]
    rw [henc, List.cons_append, List.nil_append]
    rw [utf8DecodeFuel_cons]
    rw [if_pos h1]
    simp only [hofnat]
  · by_cases h2 : n < 0x800
    · have henc : utf8EncodeChar c = [0xC0 + n / 64, 0x80 + n % 64] := by
        unfold utf8EncodeChar
        rw [← hn, if_neg h1, if_pos h2]
      rw [henc, List.cons_append, List.cons_append, List.nil_append]
      rw [utf8DecodeFuel_cons]
      rw [if_neg (by omega), if_neg (by omega), if_pos (by omega)]
      dsimp only
      rw [if_pos (by omega : (0x80 ≤ 0x80 + n % 64 ∧ 0x80 + n % 64 < 0xC0))]
      simp only [show (0xC0 + n / 64 - 0xC0) * 64 + (0x80 + n % 64 - 0x80) = n
        from by omega]
      rw [if_pos (by omega)]
      simp only [hofnat]
    · by_cases h3 : n < 0x10000
      · have henc : utf8EncodeChar c
            = [0xE0 + n / 4096, 0x80 + n / 64 % 64, 0x80 + n % 64] := by
          unfold utf8EncodeChar
          rw [← hn, if_neg h1, if_neg h2, if_pos h3]
        rw [henc, List.cons_append, List.cons_append, List.cons_append,
          List.nil_append]
        rw [utf8DecodeFuel_cons]
        rw [if_neg (by omega), if_neg (by omega), if_neg (by omega),
          if_pos (by omega)]
        dsimp only
        rw [if_pos (show (0x80 ≤ 0x80 + n / 64 % 64 ∧ 0x80 + n / 64 % 64 < 0xC0)
            ∧ 0x80 ≤ 0x80 + n % 64 ∧ 0x80 + n % 64 < 0xC0 from by omega)]
        simp only [show (0xE0 + n / 4096 - 0xE0) * 4096
            + (0x80 + n / 64 % 64 - 0x80) * 64 + (0x80 + n % 64 - 0x80) = n
          from by omega]
        rw [if_pos (show 0x800 ≤ n ∧ ¬(0xD800 ≤ n ∧ n ≤ 0xDFFF) from by omega)]
        simp only [hofnat]
      · have h4 : n < 0x110000 := by omega
        have henc : utf8EncodeChar c
            = [0xF0 + n / 262144, 0x80 + n / 4096 % 64,
               0x80 + n / 64 % 64, 0x80 + n % 64] := by
          unfold utf8EncodeChar
          rw [← hn, if_neg h1, if_neg h2, if_neg h3]
        rw [henc, List.cons_append, List.cons_append, List.cons_append,
          List.cons_append, List.nil_append]
        rw [utf8DecodeFuel_cons]
        rw [if_neg (by omega), if_neg (by omega), if_neg (by omega),
          if_neg (by omega), if_pos (by omega)]
        dsimp only
        rw [if_pos (show (0x80 ≤ 0x80 + n / 4096 % 64 ∧ 0x80 + n / 4096 % 64 < 0xC0)
            ∧ (0x80 ≤ 0x80 + n / 64 % 64 ∧ 0x80 + n / 64 % 64 < 0xC0)
            ∧ 0x80 ≤ 0x80 + n % 64 ∧ 0x80 + n % 64 < 0xC0 from by omega)]
        simp only [show (0xF0 + n / 262144 - 0xF0) * 262144
            + (0x80 + n / 4096 % 64 - 0x80) * 4096
            + (0x80 + n / 64 % 64 - 0x80) * 64 + (0x80 + n % 64 - 0x80) = n
          from by omega]
        rw [if_pos (show 0x10000 ≤ n ∧ n < 0x110000 from by omega)]
        simp only [hofnat]

theorem utf8DecodeFuel_nil (fuel : Nat) : utf8DecodeFuel fuel [] = .ok [] := by
  cases fuel <;> rfl

theorem utf8DecodeFuel_encode (s : List Char) :
    ∀ k, utf8DecodeFuel (s.length + k) ((s.map utf8EncodeChar).flatten)
      = .ok s := by
  induction s with
  | nil =>
      intro k
      simp only [List.length_nil, Nat.zero_add, List.map_nil, List.flatten_nil]
      exact utf8DecodeFuel_nil k
  | cons c cs ih =>
      intro k
      simp only [List.map_cons, List.flatten_cons, List.length_cons]
      have harith : cs.length + 1 + k = (cs.length + k) + 1 := by omega
      rw [harith, utf8EncodeChar_roundtrip (cs.length + k) c _, ih k]
      rfl

theorem utf8EncodeChar_length_pos (c : Char) :
    1 ≤ (utf8EncodeChar c).length := by
  unfold utf8EncodeChar
  dsimp only
  split_ifs <;> simp

theorem utf8Encode_flatten_length (s : List Char) :
    s.length ≤ ((s.map utf8EncodeChar).flatten).length := by
  induction s with
  | nil => simp
  | cons c cs ih =>
      simp only [List.map_cons, List.flatten_cons, List.length_append,
        List.length_cons]
      have := utf8EncodeChar_length_pos c
      omega

theorem utf8Decode_encode (s : List Char) :
    utf8Decode ((s.map utf8EncodeChar).flatten) = .ok s := by
  unfold utf8Decode
  have hle := utf8Encode_flatten_length s
  rw [show ((s.map utf8EncodeChar).flatten).length
      = s.length + (((s.map utf8EncodeChar).flatten).length - s.length)
    from by omega]
  exact utf8DecodeFuel_encode s _

/-- Claim C9: constructing a value from any text via the UTF-8 path and
reading the utf accessor back returns the text unchanged:
toUTF(fromUTF(s)) = s. -/
theorem C9_utf_roundtrip (s : List Char) :
    utfGetter (parseUTF s) = .ok s := by
  unfold utfGetter parseUTF
  dsimp only
  exact utf8Decode_encode s

theorem readBuf_writeBuf (s : Store) (ref : Nat) (l : List Nat)
    (h : ref < s.bufs.length) :
    readBuf (writeBuf s ref l) ref = l := by
  unfold readBuf writeBuf
  rw [List.getD_eq_getElem?_getD, List.getElem?_set_self]
  · rfl
  · exact h

/-- Claim C10: constructing a BigNum from an ArrayBuffer tagged 'le'
reverses the caller's buffer in place — the caller's own reference now
reads the reversed bytes — and the instance aliases the same buffer
rather than owning a copy, so a later write through the BigNum's
reference is visible through the caller's reference and vice versa. -/
theorem C10_constructor_le_mutates_and_aliases (s : Store) (ref : Nat)
    (h : ref < s.bufs.length) :
    readBuf (bigNumFromBuffer s ref true).1 ref = (readBuf s ref).reverse
    ∧ (bigNumFromBuffer s ref true).2 = ref
    ∧ (∀ l, readBuf
        (writeBuf (bigNumFromBuffer s ref true).1 (bigNumFromBuffer s ref true).2 l)
        ref = l)
    ∧ (∀ l, readBuf
        (writeBuf (bigNumFromBuffer s ref true).1 ref l)
        (bigNumFromBuffer s ref true).2 = l) := by
  have hlen : ((bigNumFromBuffer s ref true).1).bufs.length = s.bufs.length := by
    simp [bigNumFromBuffer, writeBuf]
  refine ⟨?_, rfl, ?_, ?_⟩
  · exact readBuf_writeBuf s ref _ h
  · intro l
    exact readBuf_writeBuf _ ref l (by rw [hlen]; exact h)
  · intro l
    exact readBuf_writeBuf _ ref l (by rw [hlen]; exact h)

theorem C10_constructor_le_mutates_and_aliases_witness :
    0 < (Store.mk [[1, 2, 3]]).bufs.length
    ∧ readBuf (bigNumFromBuffer (Store.mk [[1, 2, 3]]) 0 true).1 0
        = (readBuf (Store.mk [[1, 2, 3]]) 0).reverse :=
  ⟨by decide,
    (C10_constructor_le_mutates_and_aliases (Store.mk [[1, 2, 3]]) 0 (by decide)).1⟩
